import Mathlib

/-!
Verification of the delatin-rs TIN generation library against its
specification.  The Rust sources (src/lib/src/{utils,priority_queue,
triangulation,lib,error}.rs) are shallowly embedded below:

* grid coordinates (Rust `(usize, usize)`) become `Nat × Nat`;
* `isize` arithmetic in the geometric predicates becomes `Int` (exact for
  all coordinates below 2^31, as the code is only used on such grids);
* `f64` heights and errors become `ℚ`, an exact idealisation of the
  floating-point arithmetic (the control-flow and indexing properties
  proved here do not depend on rounding);
* code that can panic (out-of-bounds indexing, usize underflow) returns
  `Except Panic _`, with a tag naming the panic site;
* the two loops whose termination is not structural (the refinement loop
  and the recursive `legalize`) take an explicit fuel argument; running
  out of fuel is reported as the model-only tag `Panic.fuelOut`.
-/

namespace Delatin

/-- Grid coordinate `(x, y)`, Rust type alias `Point = (usize, usize)`. -/
abbrev Point := Nat × Nat

/-- Height value, Rust `f64`, modelled exactly as a rational. -/
abbrev Height := ℚ

/-!
Rational arithmetic, in a kernel-reducible form.  Mathlib marks
`Rat.add`, `Rat.sub`, `Rat.mul` irreducible, which blocks evaluation of
the embedding on concrete inputs inside `decide`; the four helpers below
compute the same values through `Rat.divInt`, and are proved equal to the
Mathlib operations (`qAdd_eq` …), so every theorem about them transfers.
-/

/-- Rational addition (equal to `+`, see `qAdd_eq`). -/
def qAdd (a b : ℚ) : ℚ :=
  Rat.divInt (a.num * b.den + b.num * a.den) (a.den * b.den)

/-- Rational subtraction (equal to `-`, see `qSub_eq`). -/
def qSub (a b : ℚ) : ℚ :=
  Rat.divInt (a.num * b.den - b.num * a.den) (a.den * b.den)

/-- Rational multiplication (equal to `*`, see `qMul_eq`). -/
def qMul (a b : ℚ) : ℚ := Rat.divInt (a.num * b.num) (a.den * b.den)

/-- Rational division, with division by zero yielding zero as for `/` on
`ℚ` and for the saturated float semantics it idealises (equal to `/`, see
`qDiv_eq`). -/
def qDiv (a b : ℚ) : ℚ := Rat.divInt (a.num * b.den) (a.den * b.num)

/-- Rational absolute value (equal to `|·|`, see `qAbs_eq`). -/
def qAbs (q : ℚ) : ℚ := if q < 0 then -q else q

theorem qAdd_eq (a b : ℚ) : qAdd a b = a + b := by
  rw [qAdd]
  conv_rhs => rw [← Rat.num_divInt_den a, ← Rat.num_divInt_den b]
  rw [Rat.divInt_add_divInt _ _
    (Int.natCast_ne_zero.mpr a.den_nz) (Int.natCast_ne_zero.mpr b.den_nz)]

theorem qSub_eq (a b : ℚ) : qSub a b = a - b := by
  rw [qSub]
  conv_rhs => rw [← Rat.num_divInt_den a, ← Rat.num_divInt_den b]
  rw [Rat.divInt_sub_divInt _ _
    (Int.natCast_ne_zero.mpr a.den_nz) (Int.natCast_ne_zero.mpr b.den_nz)]

theorem qMul_eq (a b : ℚ) : qMul a b = a * b := by
  rw [qMul]
  conv_rhs => rw [← Rat.num_divInt_den a, ← Rat.num_divInt_den b]
  rw [Rat.divInt_mul_divInt']

theorem qDiv_eq (a b : ℚ) : qDiv a b = a / b := by
  rw [qDiv]
  conv_rhs => rw [← Rat.num_divInt_den a, ← Rat.num_divInt_den b]
  rw [Rat.divInt_div_divInt]

theorem qAbs_eq (q : ℚ) : qAbs q = |q| := by
  by_cases h : q < 0
  · rw [qAbs, if_pos h, abs_of_neg h]
  · rw [qAbs, if_neg h, abs_of_nonneg (le_of_not_lt h)]

/-! ### utils.rs -/

/-- Rust `get_signed_area` (src/lib/src/utils.rs): twice the signed area of
the triangle `a b c`, computed exactly as in the source:
`(b.x − c.x)·(a.y − c.y) − (b.y − c.y)·(a.x − c.x)`. -/
def get_signed_area (point_a point_b point_c : Point) : Int :=
  let r1 := (point_b.1 : Int) - (point_c.1 : Int)
  let r2 := (point_a.2 : Int) - (point_c.2 : Int)
  let r3 := (point_b.2 : Int) - (point_c.2 : Int)
  let r4 := (point_a.1 : Int) - (point_c.1 : Int)
  r1 * r2 - r3 * r4

/-- Rust `is_point_in_circumcircle` (src/lib/src/utils.rs): the 3×3
in-circumcircle determinant on the differences to the test point, compared
with zero exactly as in the source. -/
def is_point_in_circumcircle (test_point point_a point_b point_c : Point) :
    Bool :=
  let delta_x_a := (point_a.1 : Int) - (test_point.1 : Int)
  let delta_y_a := (point_a.2 : Int) - (test_point.2 : Int)
  let delta_x_b := (point_b.1 : Int) - (test_point.1 : Int)
  let delta_y_b := (point_b.2 : Int) - (test_point.2 : Int)
  let delta_x_c := (point_c.1 : Int) - (test_point.1 : Int)
  let delta_y_c := (point_c.2 : Int) - (test_point.2 : Int)
  let square_distance_a := delta_x_a * delta_x_a + delta_y_a * delta_y_a
  let square_distance_b := delta_x_b * delta_x_b + delta_y_b * delta_y_b
  let square_distance_c := delta_x_c * delta_x_c + delta_y_c * delta_y_c
  decide (delta_x_a * (delta_y_b * square_distance_c -
            square_distance_b * delta_y_c)
      - delta_y_a * (delta_x_b * square_distance_c -
            square_distance_b * delta_x_c)
      + square_distance_a * (delta_x_b * delta_y_c - delta_y_b * delta_x_c)
      < 0)

/-! ### Panic model -/

/-- A Rust panic site reached by the embedded code.  Each constructor names
one concrete indexing / arithmetic expression of the source that can panic;
`fuelOut` is a model-only artifact of bounding the two non-structural
recursions. -/
inductive Panic where
  /-- `priority_queue.rs`, `pop`: `self.triangle_queue.len() - 1` underflows
  on an empty queue. -/
  | heapUnderflow : Panic
  /-- `priority_queue.rs`, `push`: `self.triangle_queue_indices[t]` with
  `t` out of bounds. -/
  | pushIndexOOB (t : Nat) : Panic
  /-- `priority_queue.rs`, `remove`: `self.triangle_queue_indices[t]` with
  `t` out of bounds. -/
  | removeIndexOOB (t : Nat) : Panic
  /-- any other out-of-bounds slice index in the embedded code. -/
  | idxOOB : Panic
  /-- model artifact: recursion fuel exhausted. -/
  | fuelOut : Panic
  deriving DecidableEq, Repr

/-- Checked read `l[i]`, panicking with the given tag out of bounds. -/
def getE {α : Type} (tag : Panic) (l : List α) (i : Nat) : Except Panic α :=
  match l.get? i with
  | some a => .ok a
  | none => .error tag

/-- Checked write `l[i] = v`, panicking with the given tag out of bounds. -/
def setE {α : Type} (tag : Panic) (l : List α) (i : Nat) (v : α) :
    Except Panic (List α) :=
  if i < l.length then .ok (l.set i v) else .error tag

/-- Checked `Vec::swap(i, j)` on a list. -/
def swapE {α : Type} (tag : Panic) (l : List α) (i j : Nat) :
    Except Panic (List α) := do
  let vi ← getE tag l i
  let vj ← getE tag l j
  .ok ((l.set i vj).set j vi)

/-! ### priority_queue.rs -/

/-- State of the indexed max-heap (struct `PriorityQueue`). -/
structure PriorityQueue where
  triangle_queue : List Nat
  triangle_queue_indices : List (Option Nat)
  triangle_errors : List ℚ
  pending_triangle_indices : List Nat
  deriving DecidableEq, Repr

/-- `PriorityQueue::new(queue_len)`. -/
def PriorityQueue.new (queue_len : Nat) : PriorityQueue :=
  { triangle_queue := []
    triangle_queue_indices := List.replicate queue_len none
    triangle_errors := []
    pending_triangle_indices := [] }

/-- `PriorityQueue::add_pending_triangle`. -/
def PriorityQueue.add_pending_triangle (q : PriorityQueue) (t : Nat) :
    PriorityQueue :=
  { q with pending_triangle_indices := q.pending_triangle_indices ++ [t] }

/-- `PriorityQueue::consume_pending_triangles` (drains the pending list). -/
def PriorityQueue.consume_pending_triangles (q : PriorityQueue) :
    List Nat × PriorityQueue :=
  (q.pending_triangle_indices, { q with pending_triangle_indices := [] })

/-- `PriorityQueue::get_max_error`: the error at the heap root, if any. -/
def PriorityQueue.get_max_error (q : PriorityQueue) : Option ℚ :=
  q.triangle_errors.head?

/-- `PriorityQueue::less(i, j)`: `triangle_errors[i] > triangle_errors[j]`. -/
def PriorityQueue.less (q : PriorityQueue) (i j : Nat) : Except Panic Bool := do
  let ei ← getE .idxOOB q.triangle_errors i
  let ej ← getE .idxOOB q.triangle_errors j
  .ok (decide (ej < ei))

/-- `PriorityQueue::swap(i, j)`: swap two heap slots and update the reverse
index entries of the two triangles stored there. -/
def PriorityQueue.swap (q : PriorityQueue) (i j : Nat) :
    Except Panic PriorityQueue := do
  let pi ← getE .idxOOB q.triangle_queue i
  let pj ← getE .idxOOB q.triangle_queue j
  let r ← setE .idxOOB q.triangle_queue_indices pi (some j)
  let r ← setE .idxOOB r pj (some i)
  let tq ← swapE .idxOOB q.triangle_queue i j
  let te ← swapE .idxOOB q.triangle_errors i j
  .ok { q with
          triangle_queue := tq
          triangle_queue_indices := r
          triangle_errors := te }

/-- Loop body of `PriorityQueue::up`: sift the element at `j` up.  The Rust
loop exits when `j` reaches the root (the parent index `(j-1) >> 1`
computed in `isize` becomes negative) or the parent is not smaller.  `j`
strictly decreases, so fuel `j + 1` never runs out. -/
def PriorityQueue.upLoop (fuel : Nat) (q : PriorityQueue) (j : Nat) :
    Except Panic PriorityQueue :=
  match fuel with
  | 0 => .error .fuelOut
  | fuel + 1 =>
    if j = 0 then .ok q
    else do
      let i := (j - 1) / 2
      let b ← q.less j i
      if b then do
        let q' ← q.swap i j
        q'.upLoop fuel i
      else .ok q

/-- `PriorityQueue::up(j)`. -/
def PriorityQueue.up (q : PriorityQueue) (j : Nat) :
    Except Panic PriorityQueue :=
  q.upLoop (j + 1) j

/-- Loop body of `PriorityQueue::down(i0, n)`; returns the final position.
The position strictly increases and stays below `n`, so fuel `n + 1` never
runs out. -/
def PriorityQueue.downLoop (fuel : Nat) (q : PriorityQueue) (i n : Nat) :
    Except Panic (PriorityQueue × Nat) :=
  match fuel with
  | 0 => .error .fuelOut
  | fuel + 1 =>
    let j1 := 2 * i + 1
    if j1 ≥ n then .ok (q, i)
    else do
      let j2 := j1 + 1
      let j ← if j2 < n then do
          let b ← q.less j2 j1
          pure (if b then j2 else j1)
        else pure j1
      let b ← q.less j i
      if b then do
        let q' ← q.swap i j
        q'.downLoop fuel j n
      else .ok (q, i)

/-- `PriorityQueue::down(i0, n)`: sift down from `i0` within the first `n`
slots; the boolean reports whether the element moved. -/
def PriorityQueue.down (q : PriorityQueue) (i0 n : Nat) :
    Except Panic (PriorityQueue × Bool) := do
  let (q', i) ← q.downLoop (n + 1) i0 n
  .ok (q', decide (i0 < i))

/-- `PriorityQueue::push(t, err)`: record the reverse index, append, sift
up.  The reverse-index write `triangle_queue_indices[t] = Some(len)` is the
panic site of the capacity bug, hence its dedicated tag. -/
def PriorityQueue.push (q : PriorityQueue) (triangle_index : Nat) (error : ℚ) :
    Except Panic PriorityQueue := do
  let queue_length := q.triangle_queue.length
  let r ← setE (.pushIndexOOB triangle_index) q.triangle_queue_indices
      triangle_index (some queue_length)
  let q := { q with
               triangle_queue_indices := r
               triangle_queue := q.triangle_queue ++ [triangle_index]
               triangle_errors := q.triangle_errors ++ [error] }
  q.up queue_length

/-- `PriorityQueue::pop_back`: pop the last heap slot and clear its reverse
index entry. -/
def PriorityQueue.popBack (q : PriorityQueue) :
    Except Panic (Option Nat × PriorityQueue) :=
  match q.triangle_queue.getLast? with
  | none => .ok (none, q)
  | some triangle => do
    let r ← setE .idxOOB q.triangle_queue_indices triangle none
    .ok (some triangle,
      { q with
          triangle_queue := q.triangle_queue.dropLast
          triangle_errors := q.triangle_errors.dropLast
          triangle_queue_indices := r })

/-- `PriorityQueue::pop`: the source first computes
`triangle_queue.len() - 1`, which on an empty queue underflows (a panic)
before `pop_back` could ever return `None`. -/
def PriorityQueue.pop (q : PriorityQueue) :
    Except Panic (Option Nat × PriorityQueue) := do
  if q.triangle_queue.length = 0 then .error .heapUnderflow
  else do
    let last_item_index := q.triangle_queue.length - 1
    let q ← q.swap 0 last_item_index
    let (q, _) ← q.down 0 last_item_index
    q.popBack

/-- Pending-list half of `PriorityQueue::remove`: linear scan, swap with the
last element, pop. -/
def removePending (pending : List Nat) (t : Nat) : List Nat :=
  match pending.indexOf? t with
  | none => pending
  | some pos =>
    match pending.getLast? with
    | none => pending
    | some last => ((pending.set pos last).dropLast)

/-- `PriorityQueue::remove(t)`: if the reverse index places `t` in the heap,
evict it there (swap with the last slot, sift, pop back); otherwise drop it
from the pending list if present.  The initial read
`triangle_queue_indices[t]` is a checked index with its own tag. -/
def PriorityQueue.remove (q : PriorityQueue) (requested_triangle_index : Nat) :
    Except Panic PriorityQueue := do
  let rt ← getE (.removeIndexOOB requested_triangle_index)
      q.triangle_queue_indices requested_triangle_index
  match rt with
  | none =>
    .ok { q with
            pending_triangle_indices :=
              removePending q.pending_triangle_indices
                requested_triangle_index }
  | some index => do
    if q.triangle_queue.length = 0 then .error .heapUnderflow
    else do
      let last_item_index := q.triangle_queue.length - 1
      let q ←
        if last_item_index ≠ index then do
          let q ← q.swap index last_item_index
          let (q, moved) ← q.down index last_item_index
          if moved then pure q else q.up index
        else pure q
      let (_, q) ← q.popBack
      .ok q

/-! ### error.rs -/

/-- Rust enum `TriangulationError`. -/
inductive TriangulationError where
  | maxErrorRetrievalError : TriangulationError
  | emptyQueueError : TriangulationError
  | invalidDataLengthError : TriangulationError
  deriving DecidableEq, Repr

/-- Outcome of driver-level code: either a Rust `Err(TriangulationError)`
return value or a panic. -/
inductive RunError where
  | err (e : TriangulationError) : RunError
  | panic (p : Panic) : RunError
  deriving DecidableEq, Repr

/-- Lift panic-only code into the driver error type. -/
def liftP {α : Type} : Except Panic α → Except RunError α
  | .ok a => .ok a
  | .error p => .error (.panic p)

/-! ### triangulation.rs -/

/-- Rust struct `Triangulation`: the mesh, the candidate table and the
queue. -/
structure Triangulation where
  height_data : List Height
  width : Nat
  height : Nat
  vertex_points : List Point
  triangles : List Nat
  half_edges : List (Option Nat)
  candidate_points : List Point
  priority_queue : PriorityQueue
  deriving DecidableEq, Repr

/-- Rust enum `AddTriangleStrategy`. -/
inductive AddTriangleStrategy where
  | create : AddTriangleStrategy
  | update (index : Nat) : AddTriangleStrategy

/-- `Triangulation::new`: note the queue capacity `width * height / 4`
(integer division), the root cause of the out-of-bounds pushes analysed
below. -/
def Triangulation.new (height_data : List Height) (width height : Nat) :
    Triangulation :=
  { height_data := height_data
    width := width
    height := height
    vertex_points := []
    triangles := []
    half_edges := []
    candidate_points := []
    priority_queue := PriorityQueue.new (width * height / 4) }

/-- `Triangulation::height_at`: `height_data[width * y + x]` (checked). -/
def Triangulation.height_at (s : Triangulation) (point : Point) :
    Except Panic Height :=
  getE .idxOOB s.height_data (s.width * point.2 + point.1)

/-- `Triangulation::add_point`: append to the vertex table, return the new
vertex index. -/
def Triangulation.add_point (s : Triangulation) (point : Point) :
    Nat × Triangulation :=
  (s.vertex_points.length,
   { s with vertex_points := s.vertex_points ++ [point] })

/-- The `if let Some(index) = half_edge …` twin write-back of
`Triangulation::add_triangle`: when the half-edge has a twin, point the
twin's slot back at the given edge index. -/
def setTwin (half_edges : List (Option Nat)) (twin : Option Nat) (v : Nat) :
    Except Panic (List (Option Nat)) :=
  match twin with
  | some h => setE .idxOOB half_edges h (some v)
  | none => .ok half_edges

/-- `Triangulation::add_triangle`: write or append the three vertex slots
and half-edge slots, write back the reverse twin links, initialise the
candidate entry and enqueue the triangle as pending. -/
def Triangulation.add_triangle (s : Triangulation) (triangle : Nat × Nat × Nat)
    (half_edge_ab half_edge_bc half_edge_ca : Option Nat)
    (add_strategy : AddTriangleStrategy) : Except Panic (Nat × Triangulation) := do
  let (index_to_add, s) ←
    match add_strategy with
    | .update index => do
      let tr ← setE .idxOOB s.triangles index triangle.1
      let tr ← setE .idxOOB tr (index + 1) triangle.2.1
      let tr ← setE .idxOOB tr (index + 2) triangle.2.2
      let he ← setE .idxOOB s.half_edges index half_edge_ab
      let he ← setE .idxOOB he (index + 1) half_edge_bc
      let he ← setE .idxOOB he (index + 2) half_edge_ca
      .ok (index, { s with triangles := tr, half_edges := he })
    | .create =>
      .ok (s.triangles.length,
        { s with
            triangles := s.triangles ++ [triangle.1, triangle.2.1, triangle.2.2]
            half_edges := s.half_edges ++ [half_edge_ab, half_edge_bc, half_edge_ca] })
  let triangle_index := index_to_add / 3
  let he ← setTwin s.half_edges half_edge_ab index_to_add
  let he ← setTwin he half_edge_bc (index_to_add + 1)
  let he ← setTwin he half_edge_ca (index_to_add + 2)
  let s := { s with
               half_edges := he
               candidate_points := s.candidate_points ++ [(0, 0)]
               priority_queue :=
                 s.priority_queue.add_pending_triangle triangle_index }
  .ok (index_to_add, s)

/-- `Triangulation::legalize`: if the twin of the requested half-edge exists
and the opposite vertex violates the circumcircle test, remove both
triangles from the queue, rewrite their two slots with the flipped diagonal
and recurse on the two newly exposed edges.  The recursion depth is bounded
by fuel (the Rust code relies on the Delaunay termination argument). -/
def Triangulation.legalize (s : Triangulation) (fuel : Nat)
    (requested_triangle_index : Nat) : Except Panic Triangulation :=
  match fuel with
  | 0 => .error .fuelOut
  | fuel + 1 => do
    let heOpt ← getE .idxOOB s.half_edges requested_triangle_index
    match heOpt with
    | none => .ok s
    | some half_edge => do
      let requested_triangle_base_index :=
        requested_triangle_index - requested_triangle_index % 3
      let adjacent_triangle_base_index := half_edge - half_edge % 3
      let requested_left_edge_index :=
        requested_triangle_base_index + (requested_triangle_index + 1) % 3
      let requested_right_edge_index :=
        requested_triangle_base_index + (requested_triangle_index + 2) % 3
      let adjacent_left_edge_index :=
        adjacent_triangle_base_index + (half_edge + 2) % 3
      let adjacent_right_edge_index :=
        adjacent_triangle_base_index + (half_edge + 1) % 3
      let vertex_0 ← getE .idxOOB s.triangles requested_right_edge_index
      let vertex_right ← getE .idxOOB s.triangles requested_triangle_index
      let vertex_left ← getE .idxOOB s.triangles requested_left_edge_index
      let vertex_1 ← getE .idxOOB s.triangles adjacent_left_edge_index
      let p1 ← getE .idxOOB s.vertex_points vertex_1
      let p0 ← getE .idxOOB s.vertex_points vertex_0
      let pright ← getE .idxOOB s.vertex_points vertex_right
      let pleft ← getE .idxOOB s.vertex_points vertex_left
      if ¬ is_point_in_circumcircle p1 p0 pright pleft then .ok s
      else do
        let half_edge_left ← getE .idxOOB s.half_edges requested_left_edge_index
        let half_edge_right ← getE .idxOOB s.half_edges requested_right_edge_index
        let adjacent_half_edge_left ← getE .idxOOB s.half_edges adjacent_left_edge_index
        let adjacent_half_edge_right ← getE .idxOOB s.half_edges adjacent_right_edge_index
        let pq ← s.priority_queue.remove (requested_triangle_base_index / 3)
        let pq ← pq.remove (adjacent_triangle_base_index / 3)
        let s := { s with priority_queue := pq }
        let (new_triangle_0, s) ← s.add_triangle (vertex_0, vertex_1, vertex_left)
          none adjacent_half_edge_left half_edge_left
          (.update requested_triangle_base_index)
        let (new_triangle_1, s) ← s.add_triangle (vertex_1, vertex_0, vertex_right)
          (some new_triangle_0) half_edge_right adjacent_half_edge_right
          (.update adjacent_triangle_base_index)
        let s ← s.legalize fuel (new_triangle_0 + 1)
        s.legalize fuel (new_triangle_1 + 2)

/-- `Triangulation::handle_collinear`: split the popped triangle (and its
neighbour across the collinear edge, when that edge has a twin) around the
new vertex, then legalize the outward edges. -/
def Triangulation.handle_collinear (s : Triangulation) (fuel : Nat)
    (new_vertex_index collinear_vertex_index : Nat) :
    Except Panic Triangulation := do
  let collinear_base_index :=
    collinear_vertex_index - collinear_vertex_index % 3
  let vertex_a_triangle_index :=
    collinear_base_index + (collinear_vertex_index + 1) % 3
  let vertex_b_triangle_index :=
    collinear_base_index + (collinear_vertex_index + 2) % 3
  let collinear_vertex_point_index ← getE .idxOOB s.triangles collinear_vertex_index
  let vertex_a_point_index ← getE .idxOOB s.triangles vertex_a_triangle_index
  let vertex_b_point_index ← getE .idxOOB s.triangles vertex_b_triangle_index
  let half_edge_a ← getE .idxOOB s.half_edges vertex_a_triangle_index
  let half_edge_b ← getE .idxOOB s.half_edges vertex_b_triangle_index
  let collOpt ← getE .idxOOB s.half_edges collinear_vertex_index
  match collOpt with
  | some collinear_half_edge => do
    let adjacent_triangle_base_index :=
      collinear_half_edge - collinear_half_edge % 3
    let adjacent_left_edge_index :=
      adjacent_triangle_base_index + (collinear_half_edge + 2) % 3
    let adjacent_right_edge_index :=
      adjacent_triangle_base_index + (collinear_half_edge + 1) % 3
    let vertex1 ← getE .idxOOB s.triangles adjacent_left_edge_index
    let half_edge_adjacent_left ← getE .idxOOB s.half_edges adjacent_left_edge_index
    let half_edge_adjacent_right ← getE .idxOOB s.half_edges adjacent_right_edge_index
    let pq ← s.priority_queue.remove (adjacent_triangle_base_index / 3)
    let s := { s with priority_queue := pq }
    let (new_triangle_0, s) ← s.add_triangle
      (vertex_b_point_index, collinear_vertex_point_index, new_vertex_index)
      half_edge_b none none (.update collinear_base_index)
    let (new_triangle_1, s) ← s.add_triangle
      (collinear_vertex_point_index, vertex1, new_vertex_index)
      half_edge_adjacent_right none (some (new_triangle_0 + 1))
      (.update adjacent_triangle_base_index)
    let (new_triangle_2, s) ← s.add_triangle
      (vertex1, vertex_a_point_index, new_vertex_index)
      half_edge_adjacent_left none (some (new_triangle_1 + 1)) .create
    let (new_triangle_3, s) ← s.add_triangle
      (vertex_a_point_index, vertex_b_point_index, new_vertex_index)
      half_edge_a (some (new_triangle_0 + 2)) (some (new_triangle_2 + 1)) .create
    let s ← s.legalize fuel new_triangle_0
    let s ← s.legalize fuel new_triangle_1
    let s ← s.legalize fuel new_triangle_2
    s.legalize fuel new_triangle_3
  | none => do
    let (new_triangle_0, s) ← s.add_triangle
      (new_vertex_index, vertex_b_point_index, collinear_vertex_point_index)
      none half_edge_b none (.update collinear_base_index)
    let (new_triangle_1, s) ← s.add_triangle
      (vertex_b_point_index, new_vertex_index, vertex_a_point_index)
      (some new_triangle_0) none half_edge_a .create
    let s ← s.legalize fuel (new_triangle_0 + 1)
    s.legalize fuel (new_triangle_1 + 2)

/-- Saturating cast used in the rasterizer's row-offset computation,
`((q as f32).floor()) as usize` applied to the already-truncated integer
quotient `q`: the float conversion is exact for the magnitudes arising
here (below 2^24), and the usize cast clamps negatives to zero. -/
def offsetCast (q : Int) : Nat := q.toNat

/-- Inner column loop of `Triangulation::find_candidate`: scan row `y` from
`x` to `maxX`, advancing the three edge functions by their per-column
steps, recording the pixel of maximal interpolation error, and breaking
the row when leaving the interior.  Fuel bounds the (structurally obvious)
iteration count. -/
def scanX (height_data : List Height) (width : Nat) (fuel : Nat)
    (y x maxX : Nat) (wbc wca wab cb ac ba : Int) (na nb nc : ℚ)
    (was_inside : Bool) (best_error : ℚ) (best_point : Point) :
    Except Panic (ℚ × Point) :=
  match fuel with
  | 0 => .error .fuelOut
  | fuel + 1 =>
    if x > maxX then .ok (best_error, best_point)
    else
      if wbc ≥ 0 ∧ wca ≥ 0 ∧ wab ≥ 0 then do
        let z := qAdd (qAdd (qMul na (wbc : ℚ)) (qMul nb (wca : ℚ)))
          (qMul nc (wab : ℚ))
        let hxy ← getE .idxOOB height_data (width * y + x)
        let z_diff := qAbs (qSub z hxy)
        let (best_error, best_point) :=
          if best_error < z_diff then (z_diff, (x, y)) else (best_error, best_point)
        scanX height_data width fuel y (x + 1) maxX
          (wbc + cb) (wca + ac) (wab + ba) cb ac ba na nb nc
          true best_error best_point
      else if was_inside then .ok (best_error, best_point)
      else
        scanX height_data width fuel y (x + 1) maxX
          (wbc + cb) (wca + ac) (wab + ba) cb ac ba na nb nc
          was_inside best_error best_point

/-- Outer row loop of `Triangulation::find_candidate`: for each row compute
the closed-form starting offset from the negative edge functions, scan the
row, then advance the row-start edge functions by their per-row steps. -/
def scanY (height_data : List Height) (width : Nat) (fuel : Nat)
    (y maxY minX maxX : Nat) (wbc wca wab : Int) (cb ac ba : Int)
    (bcx cax abx : Int) (na nb nc : ℚ) (best_error : ℚ) (best_point : Point) :
    Except Panic (ℚ × Point) :=
  match fuel with
  | 0 => .error .fuelOut
  | fuel + 1 =>
    if y > maxY then .ok (best_error, best_point)
    else do
      let offset_x : Nat := 0
      let offset_x := if wbc < 0 ∧ cb ≠ 0 then
          offset_x.max (offsetCast (Int.tdiv (-wbc) cb)) else offset_x
      let offset_x := if wca < 0 ∧ ac ≠ 0 then
          offset_x.max (offsetCast (Int.tdiv (-wca) ac)) else offset_x
      let offset_x := if wab < 0 ∧ ba ≠ 0 then
          offset_x.max (offsetCast (Int.tdiv (-wab) ba)) else offset_x
      let wbcAdj := wbc + cb * (offset_x : Int)
      let wcaAdj := wca + ac * (offset_x : Int)
      let wabAdj := wab + ba * (offset_x : Int)
      let (best_error, best_point) ←
        scanX height_data width (maxX + 2) y (minX + offset_x) maxX
          wbcAdj wcaAdj wabAdj cb ac ba na nb nc false best_error best_point
      scanY height_data width fuel (y + 1) maxY minX maxX
        (wbc + bcx) (wca + cax) (wab + abx) cb ac ba bcx cax abx na nb nc
        best_error best_point

/-- `Triangulation::find_candidate`: rasterize triangle `triangle_index`
over its bounding box with incremental integer edge functions, find the
pixel maximising `|z − H|` (forced to zero error when that pixel is one of
the triangle's vertices), store it in the candidate table and push the
triangle with its error. -/
def Triangulation.find_candidate (s : Triangulation) (triangle_index : Nat) :
    Except Panic Triangulation := do
  let vertex_a_point_index ← getE .idxOOB s.triangles (triangle_index * 3)
  let vertex_b_point_index ← getE .idxOOB s.triangles (triangle_index * 3 + 1)
  let vertex_c_point_index ← getE .idxOOB s.triangles (triangle_index * 3 + 2)
  let point_a ← getE .idxOOB s.vertex_points vertex_a_point_index
  let point_b ← getE .idxOOB s.vertex_points vertex_b_point_index
  let point_c ← getE .idxOOB s.vertex_points vertex_c_point_index
  let min_x := (point_a.1.min point_b.1).min point_c.1
  let min_y := (point_a.2.min point_b.2).min point_c.2
  let max_x := (point_a.1.max point_b.1).max point_c.1
  let max_y := (point_a.2.max point_b.2).max point_c.2
  let triangle_abc_signed_area := get_signed_area point_a point_b point_c
  let wbc := get_signed_area point_b point_c (min_x, min_y)
  let wca := get_signed_area point_c point_a (min_x, min_y)
  let wab := get_signed_area point_a point_b (min_x, min_y)
  let ba_y_diff := (point_b.2 : Int) - (point_a.2 : Int)
  let ab_x_diff := (point_a.1 : Int) - (point_b.1 : Int)
  let cb_y_diff := (point_c.2 : Int) - (point_b.2 : Int)
  let bc_x_diff := (point_b.1 : Int) - (point_c.1 : Int)
  let ac_y_diff := (point_a.2 : Int) - (point_c.2 : Int)
  let ca_x_diff := (point_c.1 : Int) - (point_a.1 : Int)
  let ha ← s.height_at point_a
  let hb ← s.height_at point_b
  let hc ← s.height_at point_c
  let normalized_height_at_a := qDiv ha (triangle_abc_signed_area : ℚ)
  let normalized_height_at_b := qDiv hb (triangle_abc_signed_area : ℚ)
  let normalized_height_at_c := qDiv hc (triangle_abc_signed_area : ℚ)
  let (max_error, max_error_point) ←
    scanY s.height_data s.width (max_y + 2) min_y max_y min_x max_x
      wbc wca wab cb_y_diff ac_y_diff ba_y_diff
      bc_x_diff ca_x_diff ab_x_diff
      normalized_height_at_a normalized_height_at_b normalized_height_at_c
      0 (0, 0)
  let max_error :=
    if max_error_point = point_a ∨ max_error_point = point_b ∨
        max_error_point = point_c then 0 else max_error
  let cps ← setE .idxOOB s.candidate_points triangle_index max_error_point
  let pq ← s.priority_queue.push triangle_index max_error
  .ok { s with candidate_points := cps, priority_queue := pq }

/-- Body of `Triangulation::flush`: rasterize each drained pending triangle
in order. -/
def Triangulation.flushList (s : Triangulation) (pending : List Nat) :
    Except Panic Triangulation :=
  match pending with
  | [] => .ok s
  | t :: rest => do
    let s ← s.find_candidate t
    s.flushList rest

/-- `Triangulation::flush`: drain the pending set and rasterize each
triangle in it. -/
def Triangulation.flush (s : Triangulation) : Except Panic Triangulation :=
  let (pending, pq) := s.priority_queue.consume_pending_triangles
  Triangulation.flushList { s with priority_queue := pq } pending

/-- Panic-only part of `Triangulation::step` after the pop succeeded with
triangle `queued_triangle`: read the triangle, add its candidate point as a
new vertex, and insert it by the collinear or the interior scheme. -/
def Triangulation.stepBody (s : Triangulation) (fuel : Nat)
    (queued_triangle : Nat) : Except Panic Triangulation := do
  let vertex_a_triangle_index := queued_triangle * 3
  let vertex_b_triangle_index := queued_triangle * 3 + 1
  let vertex_c_triangle_index := queued_triangle * 3 + 2
  let vertex_a_point_index ← getE .idxOOB s.triangles vertex_a_triangle_index
  let vertex_b_point_index ← getE .idxOOB s.triangles vertex_b_triangle_index
  let vertex_c_point_index ← getE .idxOOB s.triangles vertex_c_triangle_index
  let point_a ← getE .idxOOB s.vertex_points vertex_a_point_index
  let point_b ← getE .idxOOB s.vertex_points vertex_b_point_index
  let point_c ← getE .idxOOB s.vertex_points vertex_c_point_index
  let candidate_point ← getE .idxOOB s.candidate_points queued_triangle
  let (new_vertex_index, s) := s.add_point candidate_point
  if get_signed_area point_a point_b candidate_point = 0 then
    s.handle_collinear fuel new_vertex_index vertex_a_triangle_index
  else if get_signed_area point_b point_c candidate_point = 0 then
    s.handle_collinear fuel new_vertex_index vertex_b_triangle_index
  else if get_signed_area point_c point_a candidate_point = 0 then
    s.handle_collinear fuel new_vertex_index vertex_c_triangle_index
  else do
    let half_edge_a ← getE .idxOOB s.half_edges vertex_a_triangle_index
    let half_edge_b ← getE .idxOOB s.half_edges vertex_b_triangle_index
    let half_edge_c ← getE .idxOOB s.half_edges vertex_c_triangle_index
    let (new_triangle_0, s) ← s.add_triangle
      (vertex_a_point_index, vertex_b_point_index, new_vertex_index)
      half_edge_a none none (.update vertex_a_triangle_index)
    let (new_triangle_1, s) ← s.add_triangle
      (vertex_b_point_index, vertex_c_point_index, new_vertex_index)
      half_edge_b none (some (new_triangle_0 + 1)) .create
    let (new_triangle_2, s) ← s.add_triangle
      (vertex_c_point_index, vertex_a_point_index, new_vertex_index)
      half_edge_c (some (new_triangle_0 + 2)) (some (new_triangle_1 + 1)) .create
    let s ← s.legalize fuel new_triangle_0
    let s ← s.legalize fuel new_triangle_1
    s.legalize fuel new_triangle_2

/-- `Triangulation::step`: pop the worst triangle (surfacing
`EmptyQueueError` when `pop` yields no triangle) and insert its candidate
point. -/
def Triangulation.step (s : Triangulation) (fuel : Nat) :
    Except RunError Triangulation := do
  let (popped, pq) ← liftP s.priority_queue.pop
  match popped with
  | none => .error (.err .emptyQueueError)
  | some queued_triangle =>
    liftP (Triangulation.stepBody { s with priority_queue := pq } fuel
      queued_triangle)

/-- `Triangulation::refine`: one step followed by a flush. -/
def Triangulation.refine (s : Triangulation) (fuel : Nat) :
    Except RunError Triangulation := do
  let s ← s.step fuel
  liftP s.flush

/-- The `while` loop of `Triangulation::run`: while the root error exists
and exceeds `max_error`, refine; surface `MaxErrorRetrievalError` when the
root error is missing. -/
def Triangulation.runLoop (s : Triangulation) (max_error : ℚ) (fuel : Nat) :
    Except RunError Triangulation :=
  match fuel with
  | 0 => .error (.panic .fuelOut)
  | fuel + 1 =>
    match s.priority_queue.get_max_error with
    | none => .error (.err .maxErrorRetrievalError)
    | some e =>
      if e > max_error then do
        let s ← s.refine fuel
        s.runLoop max_error fuel
      else .ok s

/-- `Triangulation::run` up to (and including) the refinement loop,
returning the final state: seed the four corner vertices and the two
seed triangles, flush, then loop. -/
def Triangulation.runState (height_data : List Height) (width height : Nat)
    (max_error : ℚ) (fuel : Nat) : Except RunError Triangulation := do
  let s := Triangulation.new height_data width height
  let initial_x := width - 1
  let initial_y := height - 1
  let (vertex_a_point_index, s) := s.add_point (0, 0)
  let (vertex_b_point_index, s) := s.add_point (initial_x, 0)
  let (vertex_c_point_index, s) := s.add_point (initial_x, initial_y)
  let (vertex_d_point_index, s) := s.add_point (0, initial_y)
  let (triangle_0, s) ← liftP (s.add_triangle
    (vertex_c_point_index, vertex_a_point_index, vertex_d_point_index)
    none none none .create)
  let (_, s) ← liftP (s.add_triangle
    (vertex_a_point_index, vertex_c_point_index, vertex_b_point_index)
    (some triangle_0) none none .create)
  let s ← liftP s.flush
  s.runLoop max_error fuel

/-- `Triangulation::get_triangle_indices`: read the triangle list as
consecutive triples (every slot is a live triangle). -/
def tripleChunks : List Nat → List (Nat × Nat × Nat)
  | a :: b :: c :: rest => (a, b, c) :: tripleChunks rest
  | _ => []

/-- `Triangulation::run`: the `(points, triangles)` pair emitted after the
refinement loop. -/
def Triangulation.run (height_data : List Height) (width height : Nat)
    (max_error : ℚ) (fuel : Nat) :
    Except RunError (List Point × List (Nat × Nat × Nat)) := do
  let s ← Triangulation.runState height_data width height max_error fuel
  .ok (s.vertex_points, tripleChunks s.triangles)

/-! ### lib.rs -/

/-- The output mapping of `triangulate`: for each triangle, turn its three
vertex indices into indices of the original height array
(`point.y * width + point.x`), reading `points[·]` with checked indexing as
the Rust code does. -/
def mapToOriginal (points : List Point) (width : Nat) :
    List (Nat × Nat × Nat) → Except Panic (List (Nat × Nat × Nat))
  | [] => .ok []
  | t :: rest => do
    let point_a ← getE .idxOOB points t.1
    let point_b ← getE .idxOOB points t.2.1
    let point_c ← getE .idxOOB points t.2.2
    let r ← mapToOriginal points width rest
    .ok ((point_a.2 * width + point_a.1,
          point_b.2 * width + point_b.1,
          point_c.2 * width + point_c.1) :: r)

/-- `triangulate` (src/lib/src/lib.rs): validate the data length, run the
triangulation and map each triangle's vertices back to indices into the
original height array. -/
def triangulate (height_data : List Height) (width height : Nat)
    (max_error : ℚ) (fuel : Nat) :
    Except RunError (List (Nat × Nat × Nat)) := do
  if height_data.length = width * height then do
    let (points, triangles) ←
      Triangulation.run height_data width height max_error fuel
    liftP (mapToOriginal points width triangles)
  else .error (.err .invalidDataLengthError)

/-! ## Geometric characterisations -/

/-- A grid point as a point of the rational plane. -/
def ptQ (p : Point) : ℚ × ℚ := ((p.1 : ℚ), (p.2 : ℚ))

/-- Standard orientation determinant `(q − p) × (r − p)` of three points of
the integer plane with the usual mathematical axes (y upwards): positive
exactly when `p, q, r` make a counter-clockwise turn. -/
def orientStd (p q r : Int × Int) : Int :=
  (q.1 - p.1) * (r.2 - p.2) - (q.2 - p.2) * (r.1 - p.1)

/-- A grid point in mathematical axes: the grid's y axis is the row index
and points downwards (raster convention), so y is negated. -/
def flipY (p : Point) : Int × Int := ((p.1 : Int), -(p.2 : Int))

/-- Counter-clockwise order of three grid points in the raster convention
of the grid (x to the right, y = row index downwards), defined through the
standard orientation determinant after mapping into mathematical axes. -/
def ccwRaster (a b c : Point) : Prop :=
  0 < orientStd (flipY a) (flipY b) (flipY c)

/-- Determinant characterisation of collinearity in the rational plane. -/
theorem collinear_iff_det (A B C : ℚ × ℚ) :
    (B.1 - C.1) * (A.2 - C.2) - (B.2 - C.2) * (A.1 - C.1) = 0 ↔
      Collinear ℚ ({A, B, C} : Set (ℚ × ℚ)) := by
  constructor
  · intro hdet
    by_cases hBC : B = C
    · have : ({A, B, C} : Set (ℚ × ℚ)) = {A, C} := by
        rw [hBC]; simp
      rw [this]
      exact collinear_pair ℚ A C
    · rw [collinear_iff_of_mem (show C ∈ ({A, B, C} : Set (ℚ × ℚ)) by simp)]
      refine ⟨B - C, ?_⟩
      intro p hp
      rcases hp with hp | hp | hp
      · subst hp
        have hv : B.1 - C.1 ≠ 0 ∨ B.2 - C.2 ≠ 0 := by
          by_contra hcon
          push_neg at hcon
          exact hBC (Prod.ext (by linarith [hcon.1]) (by linarith [hcon.2]))
        rcases hv with hv | hv
        · refine ⟨(p.1 - C.1) / (B.1 - C.1), ?_⟩
          apply Prod.ext
          · simp only [Prod.fst_add, Prod.smul_fst, smul_eq_mul, Prod.fst_sub, vadd_eq_add]
            field_simp
          · simp only [Prod.snd_add, Prod.smul_snd, smul_eq_mul, Prod.snd_sub, vadd_eq_add]
            field_simp
            nlinarith [hdet]
        · refine ⟨(p.2 - C.2) / (B.2 - C.2), ?_⟩
          apply Prod.ext
          · simp only [Prod.fst_add, Prod.smul_fst, smul_eq_mul, Prod.fst_sub, vadd_eq_add]
            field_simp
            nlinarith [hdet]
          · simp only [Prod.snd_add, Prod.smul_snd, smul_eq_mul, Prod.snd_sub, vadd_eq_add]
            field_simp
      · subst hp
        exact ⟨1, by simp [vadd_eq_add]⟩
      · simp only [Set.mem_singleton_iff] at hp
        subst hp
        exact ⟨0, by simp [vadd_eq_add]⟩
  · intro hcol
    rw [collinear_iff_of_mem (Set.mem_insert A _)] at hcol
    obtain ⟨v, hv⟩ := hcol
    obtain ⟨rB, hB⟩ := hv B (Set.mem_insert_of_mem _ (Set.mem_insert _ _))
    obtain ⟨rC, hC⟩ := hv C
      (Set.mem_insert_of_mem _ (Set.mem_insert_of_mem _ rfl))
    have hB1 : B.1 = rB * v.1 + A.1 := by rw [hB]; simp [vadd_eq_add]
    have hB2 : B.2 = rB * v.2 + A.2 := by rw [hB]; simp [vadd_eq_add]
    have hC1 : C.1 = rC * v.1 + A.1 := by rw [hC]; simp [vadd_eq_add]
    have hC2 : C.2 = rC * v.2 + A.2 := by rw [hC]; simp [vadd_eq_add]
    rw [hB1, hB2, hC1, hC2]
    ring

/-- C6.  `get_signed_area(a, b, c)` equals the spec's formula
`(b.x − c.x)·(a.y − c.y) − (b.y − c.y)·(a.x − c.x)`; it is positive exactly
when `a, b, c` are in counter-clockwise order (in the raster convention of
the grid, whose y axis is the row index pointing downwards), and zero
exactly when the three points are collinear. -/
theorem signed_area_spec (a b c : Point) :
    get_signed_area a b c =
      ((b.1 : Int) - (c.1 : Int)) * ((a.2 : Int) - (c.2 : Int)) -
        ((b.2 : Int) - (c.2 : Int)) * ((a.1 : Int) - (c.1 : Int)) ∧
    (0 < get_signed_area a b c ↔ ccwRaster a b c) ∧
    (get_signed_area a b c = 0 ↔
      Collinear ℚ ({ptQ a, ptQ b, ptQ c} : Set (ℚ × ℚ))) := by
  refine ⟨rfl, ?_, ?_⟩
  · have h : orientStd (flipY a) (flipY b) (flipY c) = get_signed_area a b c := by
      simp only [orientStd, flipY, get_signed_area]
      ring
    rw [ccwRaster, h]
  · have h : ((get_signed_area a b c : ℚ)) =
        ((ptQ b).1 - (ptQ c).1) * ((ptQ a).2 - (ptQ c).2) -
          ((ptQ b).2 - (ptQ c).2) * ((ptQ a).1 - (ptQ c).1) := by
      simp only [get_signed_area, ptQ]
      push_cast
      ring
    rw [← collinear_iff_det, ← h]
    norm_cast

/-- Squared euclidean distance in the rational plane. -/
def sqDistQ (p o : ℚ × ℚ) : ℚ := (p.1 - o.1) ^ 2 + (p.2 - o.2) ^ 2

/-- The 3×3 in-circumcircle determinant computed by
`is_point_in_circumcircle`, as a standalone integer. -/
def circumDet (test_point point_a point_b point_c : Point) : Int :=
  let delta_x_a := (point_a.1 : Int) - (test_point.1 : Int)
  let delta_y_a := (point_a.2 : Int) - (test_point.2 : Int)
  let delta_x_b := (point_b.1 : Int) - (test_point.1 : Int)
  let delta_y_b := (point_b.2 : Int) - (test_point.2 : Int)
  let delta_x_c := (point_c.1 : Int) - (test_point.1 : Int)
  let delta_y_c := (point_c.2 : Int) - (test_point.2 : Int)
  let square_distance_a := delta_x_a * delta_x_a + delta_y_a * delta_y_a
  let square_distance_b := delta_x_b * delta_x_b + delta_y_b * delta_y_b
  let square_distance_c := delta_x_c * delta_x_c + delta_y_c * delta_y_c
  delta_x_a * (delta_y_b * square_distance_c - square_distance_b * delta_y_c)
    - delta_y_a * (delta_x_b * square_distance_c - square_distance_b * delta_x_c)
    + square_distance_a * (delta_x_b * delta_y_c - delta_y_b * delta_x_c)

/-- The predicate is the sign test of that determinant. -/
theorem is_point_in_circumcircle_eq (p a b c : Point) :
    is_point_in_circumcircle p a b c = decide (circumDet p a b c < 0) := rfl

/-- Cofactor-expansion identity: against any circle of centre `o` and
squared radius `r` through `a`, `b`, `c`, the determinant factors through
the signed area and the power of the test point with respect to the
circle. -/
theorem circumDet_key (p a b c : Point) (o : ℚ × ℚ) (r : ℚ)
    (ha : sqDistQ (ptQ a) o = r) (hb : sqDistQ (ptQ b) o = r)
    (hc : sqDistQ (ptQ c) o = r) :
    ((circumDet p a b c : ℚ)) =
      (get_signed_area a b c : ℚ) * (sqDistQ (ptQ p) o - r) := by
  simp only [sqDistQ, ptQ] at ha hb hc ⊢
  simp only [circumDet, get_signed_area]
  push_cast
  linear_combination
    (((c.1 : ℚ) - (b.1 : ℚ)) * ((p.2 : ℚ) - (b.2 : ℚ)) -
      ((c.2 : ℚ) - (b.2 : ℚ)) * ((p.1 : ℚ) - (b.1 : ℚ))) * ha -
    (((c.1 : ℚ) - (a.1 : ℚ)) * ((p.2 : ℚ) - (a.2 : ℚ)) -
      ((c.2 : ℚ) - (a.2 : ℚ)) * ((p.1 : ℚ) - (a.1 : ℚ))) * hb +
    (((b.1 : ℚ) - (a.1 : ℚ)) * ((p.2 : ℚ) - (a.2 : ℚ)) -
      ((b.2 : ℚ) - (a.2 : ℚ)) * ((p.1 : ℚ) - (a.1 : ℚ))) * hc

/-- C7.  For a triangle `(a, b, c)` in CCW order (positive signed area, the
code's orientation convention) and any circle through its three vertices
(centre `o`, squared radius `r` — i.e. the circumscribed circle),
`is_point_in_circumcircle(p, a, b, c)` returns `true` exactly when `p`
lies strictly inside that circle; in particular it returns `false` when
`p` lies exactly on the circle. -/
theorem in_circumcircle_spec (p a b c : Point) (o : ℚ × ℚ) (r : ℚ)
    (hccw : 0 < get_signed_area a b c)
    (ha : sqDistQ (ptQ a) o = r) (hb : sqDistQ (ptQ b) o = r)
    (hc : sqDistQ (ptQ c) o = r) :
    (is_point_in_circumcircle p a b c = true ↔ sqDistQ (ptQ p) o < r) ∧
    (sqDistQ (ptQ p) o = r → is_point_in_circumcircle p a b c = false) := by
  have hkey := circumDet_key p a b c o r ha hb hc
  have hgsa : (0 : ℚ) < ((get_signed_area a b c : Int) : ℚ) := by
    exact_mod_cast hccw
  constructor
  · rw [is_point_in_circumcircle_eq, decide_eq_true_eq]
    constructor
    · intro h
      have h' : ((circumDet p a b c : Int) : ℚ) < 0 := by exact_mod_cast h
      rw [hkey] at h'
      nlinarith
    · intro h
      have h' : ((circumDet p a b c : Int) : ℚ) < 0 := by
        rw [hkey]
        nlinarith
      exact_mod_cast h'
  · intro heq
    rw [is_point_in_circumcircle_eq]
    simp only [decide_eq_false_iff_not, not_lt]
    have h' : ((circumDet p a b c : Int) : ℚ) = 0 := by
      rw [hkey, heq]
      ring
    exact_mod_cast h'.ge

/-- Closed witness for `in_circumcircle_spec`: the triangle
`(0,0), (0,2), (2,0)` is CCW, its circumcircle has centre `(1,1)` and
squared radius 2, and the centre itself is reported strictly inside. -/
theorem in_circumcircle_spec_witness :
    is_point_in_circumcircle (1, 1) (0, 0) (0, 2) (2, 0) = true :=
  ((in_circumcircle_spec (1, 1) (0, 0) (0, 2) (2, 0) (1, 1) 2
    (by decide)
    (by norm_num [sqDistQ, ptQ])
    (by norm_num [sqDistQ, ptQ])
    (by norm_num [sqDistQ, ptQ])).1).mpr
    (by norm_num [sqDistQ, ptQ])

/-! ## Driver behaviour -/

/-- Inversion of a successful monadic bind on `Except`. -/
theorem bind_eq_ok {ε α β : Type} {x : Except ε α} {f : α → Except ε β}
    {b : β} (h : (x >>= f) = .ok b) : ∃ a, x = .ok a ∧ f a = .ok b := by
  cases x with
  | ok a => exact ⟨a, rfl, h⟩
  | error e => exact absurd h (by simp [Bind.bind, Except.bind])

/-- Decidable equality of `Except` values, for evaluating the embedding on
concrete inputs. -/
instance exceptDecEq {ε α : Type} [DecidableEq ε] [DecidableEq α] :
    DecidableEq (Except ε α) := fun x y =>
  match x, y with
  | .ok a, .ok b => decidable_of_iff (a = b) (by simp)
  | .error e, .error f => decidable_of_iff (e = f) (by simp)
  | .ok _, .error _ => isFalse (by simp)
  | .error _, .ok _ => isFalse (by simp)

/-- C4.  The source of `PriorityQueue::pop` first computes
`triangle_queue.len() - 1`; on an empty heap this usize subtraction
underflows, so `pop` panics instead of returning `None` — the
`EmptyQueueError` path of the driver is unreachable. -/
theorem pop_empty_panics :
    PriorityQueue.pop (PriorityQueue.new 1) = .error .heapUnderflow := by
  decide

/-- C3.  On the concrete input `width = height = 2`,
`heights = [0,0,0,0]`, `τ = 1`, the code does not produce the
four-corner mesh of the spec: the queue's reverse index is allocated with
length `2·2/4 = 1`, and pushing the second seed triangle (index 1) during
the initial flush indexes it out of bounds — a panic. -/
theorem run_2x2_panics :
    Triangulation.run [0, 0, 0, 0] 2 2 1 100 =
      .error (.panic (.pushIndexOOB 1)) := by
  decide

/-- C9.  `triangulate` is a pure function of its inputs: the embedding has
no implicit state, so two invocations on the same input are definitionally
the same value. -/
theorem triangulate_deterministic (height_data : List Height)
    (width height : Nat) (max_error : ℚ) (fuel : Nat) :
    triangulate height_data width height max_error fuel =
      triangulate height_data width height max_error fuel := rfl

/-- Inversion of a failing monadic bind on `Except`. -/
theorem bind_eq_error {ε α β : Type} {x : Except ε α} {f : α → Except ε β}
    {e : ε} (h : (x >>= f) = .error e) :
    x = .error e ∨ ∃ a, x = .ok a ∧ f a = .error e := by
  cases x with
  | ok a => exact Or.inr ⟨a, rfl, h⟩
  | error e' =>
    have h' : (Except.error e' : Except ε β) = .error e := h
    injection h' with he
    exact Or.inl (he ▸ rfl)

/-- Lifted panic-only code never produces a Rust `Err` value. -/
theorem liftP_ne_err {α : Type} (x : Except Panic α) (e : TriangulationError) :
    liftP x ≠ .error (.err e) := by
  cases x <;> simp [liftP]

/-- `step` never reports `InvalidDataLengthError`. -/
theorem step_ne_invalid (s : Triangulation) (fuel : Nat) :
    s.step fuel ≠ .error (.err .invalidDataLengthError) := by
  intro h
  rw [Triangulation.step] at h
  rcases bind_eq_error h with h | ⟨⟨popped, pq⟩, _, h⟩
  · exact liftP_ne_err _ _ h
  · cases popped with
    | none => simp at h
    | some t => exact liftP_ne_err _ _ h

/-- `refine` never reports `InvalidDataLengthError`. -/
theorem refine_ne_invalid (s : Triangulation) (fuel : Nat) :
    s.refine fuel ≠ .error (.err .invalidDataLengthError) := by
  intro h
  rw [Triangulation.refine] at h
  rcases bind_eq_error h with h | ⟨s₁, _, h⟩
  · exact step_ne_invalid s fuel h
  · exact liftP_ne_err _ _ h

/-- The refinement loop never reports `InvalidDataLengthError`. -/
theorem runLoop_ne_invalid (me : ℚ) :
    ∀ (fuel : Nat) (s : Triangulation),
      s.runLoop me fuel ≠ .error (.err .invalidDataLengthError) := by
  intro fuel
  induction fuel with
  | zero => intro s h; simp [Triangulation.runLoop] at h
  | succ fuel ih =>
    intro s h
    rw [Triangulation.runLoop] at h
    split at h
    · simp at h
    · split at h
      · rcases bind_eq_error h with h | ⟨s₁, _, h⟩
        · exact refine_ne_invalid s fuel h
        · exact ih s₁ h
      · simp at h

/-- `Triangulation::run` never reports `InvalidDataLengthError`: the only
code that raises it is the length guard of `triangulate`. -/
theorem run_ne_invalid (hd : List Height) (w ht : Nat) (me : ℚ) (fuel : Nat) :
    Triangulation.run hd w ht me fuel ≠ .error (.err .invalidDataLengthError) := by
  intro h
  rw [Triangulation.run] at h
  rcases bind_eq_error h with h | ⟨s₁, _, h⟩
  · rw [Triangulation.runState] at h
    rcases bind_eq_error h with h | ⟨⟨t0, s2⟩, _, h⟩
    · exact liftP_ne_err _ _ h
    · rcases bind_eq_error h with h | ⟨⟨t1, s3⟩, _, h⟩
      · exact liftP_ne_err _ _ h
      · rcases bind_eq_error h with h | ⟨s4, _, h⟩
        · exact liftP_ne_err _ _ h
        · exact runLoop_ne_invalid me fuel s4 h
  · simp at h

/-- C5.  `triangulate` reports `InvalidDataLengthError` exactly when the
height array's length differs from `width · height`.  The length guard is
the first statement of `triangulate` (before `Triangulation::new`), so in
that case the error is returned before any mesh state is constructed, and
no other part of the pipeline ever produces this error. -/
theorem triangulate_invalid_iff (hd : List Height) (w ht : Nat) (me : ℚ)
    (fuel : Nat) :
    triangulate hd w ht me fuel = .error (.err .invalidDataLengthError) ↔
      hd.length ≠ w * ht := by
  constructor
  · intro h hlen
    rw [triangulate, if_pos hlen] at h
    rcases bind_eq_error h with h | ⟨⟨points, tris⟩, _, h⟩
    · exact run_ne_invalid hd w ht me fuel h
    · exact liftP_ne_err _ _ h
  · intro hlen
    rw [triangulate, if_neg hlen]

/-! ## The indexed-heap consistency invariant (C8) -/

@[simp] theorem ok_bind {ε α β : Type} (a : α) (f : α → Except ε β) :
    (Except.ok a >>= f) = f a := rfl

@[simp] theorem error_bind {ε α β : Type} (e : ε) (f : α → Except ε β) :
    ((Except.error e : Except ε α) >>= f) = .error e := rfl

@[simp] theorem if_true_bool {α : Sort _} (x y : α) :
    (if (true : Bool) then x else y) = x := rfl

@[simp] theorem if_false_bool {α : Sort _} (x y : α) :
    (if (false : Bool) then x else y) = y := rfl

/-- Consistency of the reverse index with the heap: the error and queue
arrays are aligned, every triangle stored at heap position `i` has reverse
index entry `some i`, and every reverse index entry `some i` points back to
a heap slot holding that triangle. -/
def heapInv (q : PriorityQueue) : Prop :=
  q.triangle_errors.length = q.triangle_queue.length ∧
  (∀ i t, q.triangle_queue.get? i = some t →
      q.triangle_queue_indices.get? t = some (some i)) ∧
  (∀ t i, q.triangle_queue_indices.get? t = some (some i) →
      q.triangle_queue.get? i = some t)

/-- Under the invariant the heap has no duplicate triangles. -/
theorem heapInv_inj {q : PriorityQueue} (hq : heapInv q) {i j t : Nat}
    (hi : q.triangle_queue.get? i = some t)
    (hj : q.triangle_queue.get? j = some t) : i = j := by
  have h1 := hq.2.1 i t hi
  have h2 := hq.2.1 j t hj
  rw [h1] at h2
  injection h2 with h2
  injection h2

/-- Under the invariant every queued triangle is within the reverse-index
capacity. -/
theorem heapInv_entry_lt {q : PriorityQueue} (hq : heapInv q) {i t : Nat}
    (hi : q.triangle_queue.get? i = some t) :
    t < q.triangle_queue_indices.length := by
  have h1 := hq.2.1 i t hi
  by_contra hlt
  rw [List.get?_eq_none.mpr (le_of_not_lt hlt)] at h1
  exact Option.noConfusion h1

/-- A triangle absent from the heap has reverse index entry `none` (the
second half of the claimed invariant). -/
theorem heapInv_not_mem {q : PriorityQueue} (hq : heapInv q) {t : Nat}
    (ht : t < q.triangle_queue_indices.length)
    (habs : ∀ i, q.triangle_queue.get? i ≠ some t) :
    q.triangle_queue_indices.get? t = some none := by
  cases hrt : q.triangle_queue_indices.get? t with
  | none =>
    rw [List.get?_eq_none] at hrt
    omega
  | some o =>
    cases o with
    | none => rfl
    | some i => exact absurd (hq.2.2 t i hrt) (habs i)

/-- Reading a doubly updated list. -/
theorem get?_set_set {α : Type} (l : List α) (i j k : Nat) (a b : α)
    (hi : i < l.length) (hj : j < l.length) :
    ((l.set i a).set j b).get? k =
      if k = j then some b else if k = i then some a else l.get? k := by
  by_cases hkj : k = j
  · subst hkj
    rw [if_pos rfl, List.get?_set_eq_of_lt]
    simpa using hj
  · rw [if_neg hkj, List.get?_set_ne _ _ (fun h => hkj h.symm)]
    by_cases hki : k = i
    · subst hki
      rw [if_pos rfl, List.get?_set_eq_of_lt _ hi]
    · rw [if_neg hki, List.get?_set_ne _ _ (fun h => hki h.symm)]

/-- `swap` succeeds on two in-range positions and preserves the
invariant, the three lengths and the pending list. -/
theorem swap_ok {q : PriorityQueue} {i j : Nat} (hq : heapInv q)
    (hi : i < q.triangle_queue.length) (hj : j < q.triangle_queue.length) :
    ∃ q', q.swap i j = .ok q' ∧ heapInv q' ∧
      q'.triangle_queue.length = q.triangle_queue.length ∧
      q'.triangle_queue_indices.length = q.triangle_queue_indices.length ∧
      q'.triangle_errors.length = q.triangle_errors.length ∧
      q'.pending_triangle_indices = q.pending_triangle_indices := by
  obtain ⟨hlen, hfw, hbw⟩ := hq
  have hqi : q.triangle_queue.get? i = some (q.triangle_queue.get ⟨i, hi⟩) :=
    List.get?_eq_get hi
  have hqj : q.triangle_queue.get? j = some (q.triangle_queue.get ⟨j, hj⟩) :=
    List.get?_eq_get hj
  set pi := q.triangle_queue.get ⟨i, hi⟩ with hpi
  set pj := q.triangle_queue.get ⟨j, hj⟩ with hpj
  have hpil : pi < q.triangle_queue_indices.length := heapInv_entry_lt ⟨hlen, hfw, hbw⟩ hqi
  have hpjl : pj < q.triangle_queue_indices.length := heapInv_entry_lt ⟨hlen, hfw, hbw⟩ hqj
  have hie : i < q.triangle_errors.length := by omega
  have hje : j < q.triangle_errors.length := by omega
  have hei : q.triangle_errors.get? i =
      some (q.triangle_errors.get ⟨i, hie⟩) := List.get?_eq_get hie
  have hej : q.triangle_errors.get? j =
      some (q.triangle_errors.get ⟨j, hje⟩) := List.get?_eq_get hje
  refine ⟨{ q with
      triangle_queue := (q.triangle_queue.set i pj).set j pi
      triangle_queue_indices :=
        (q.triangle_queue_indices.set pi (some j)).set pj (some i)
      triangle_errors :=
        (q.triangle_errors.set i (q.triangle_errors.get ⟨j, hje⟩)).set j
          (q.triangle_errors.get ⟨i, hie⟩) }, ?_, ?_, ?_, ?_, ?_, ?_⟩
  · rw [PriorityQueue.swap]
    simp only [getE, setE, swapE, hqi, hqj, hei, hej, ok_bind,
      if_pos hpil, if_pos (by simpa using hpjl : pj < (q.triangle_queue_indices.set pi (some j)).length),
      if_pos hi, if_pos hj, if_pos hie, if_pos hje]
  · refine ⟨by simpa using hlen, ?_, ?_⟩
    · intro k t hk
      simp only at hk
      rw [get?_set_set _ _ _ _ _ _ hi hj] at hk
      simp only
      by_cases hkj : k = j
      · rw [if_pos hkj] at hk
        injection hk with hk
        subst hk
        rw [get?_set_set _ _ _ _ _ _ hpil hpjl]
        by_cases hpp : pi = pj
        · have hqj' : q.triangle_queue.get? j = some pi := by rw [hqj, hpp]
          have hij : i = j := heapInv_inj ⟨hlen, hfw, hbw⟩ hqi hqj'
          rw [if_pos hpp, hkj, hij]
        · rw [if_neg hpp, if_pos rfl, hkj]
      · rw [if_neg hkj] at hk
        by_cases hki : k = i
        · rw [if_pos hki] at hk
          injection hk with hk
          subst hk
          rw [get?_set_set _ _ _ _ _ _ hpil hpjl, if_pos rfl, hki]
        · rw [if_neg hki] at hk
          have hold := hfw k t hk
          have htpj : t ≠ pj := by
            intro h
            have hqj' : q.triangle_queue.get? j = some t := by rw [hqj, ← h]
            exact hkj (heapInv_inj ⟨hlen, hfw, hbw⟩ hk hqj')
          have htpi : t ≠ pi := by
            intro h
            have hqi' : q.triangle_queue.get? i = some t := by rw [hqi, ← h]
            exact hki (heapInv_inj ⟨hlen, hfw, hbw⟩ hk hqi')
          rw [get?_set_set _ _ _ _ _ _ hpil hpjl, if_neg htpj, if_neg htpi]
          exact hold
    · intro t m ht
      simp only at ht
      rw [get?_set_set _ _ _ _ _ _ hpil hpjl] at ht
      simp only
      rw [get?_set_set _ _ _ _ _ _ hi hj]
      by_cases htj : t = pj
      · rw [if_pos htj] at ht
        injection ht with ht
        injection ht with ht
        rw [← ht, htj]
        by_cases hij : i = j
        · subst hij
          rw [if_pos rfl]
        · rw [if_neg hij, if_pos rfl]
      · rw [if_neg htj] at ht
        by_cases hti : t = pi
        · rw [if_pos hti] at ht
          injection ht with ht
          injection ht with ht
          rw [← ht, if_pos rfl, hti]
        · rw [if_neg hti] at ht
          have hold := hbw t m ht
          have hmj : m ≠ j := by
            intro h
            rw [h, hqj] at hold
            injection hold with h'
            exact htj h'.symm
          have hmi : m ≠ i := by
            intro h
            rw [h, hqi] at hold
            injection hold with h'
            exact hti h'.symm
          rw [if_neg hmj, if_neg hmi]
          exact hold
  · simp
  · simp
  · simp
  · simp

/-- `less` succeeds on two in-range positions, returning the strict
comparison of the two stored errors. -/
theorem less_ok {q : PriorityQueue} {i j : Nat}
    (hi : i < q.triangle_errors.length) (hj : j < q.triangle_errors.length) :
    q.less i j = .ok (decide (q.triangle_errors.get ⟨j, hj⟩ <
      q.triangle_errors.get ⟨i, hi⟩)) := by
  rw [PriorityQueue.less]
  simp only [getE, List.get?_eq_get hi, List.get?_eq_get hj, ok_bind]

/-- The sift-up loop succeeds below its fuel bound and preserves the
invariant, the lengths and the pending list. -/
theorem upLoop_ok : ∀ (fuel : Nat) (q : PriorityQueue) (j : Nat),
    heapInv q → j < q.triangle_queue.length → j < fuel →
    ∃ q', q.upLoop fuel j = .ok q' ∧ heapInv q' ∧
      q'.triangle_queue.length = q.triangle_queue.length ∧
      q'.triangle_queue_indices.length = q.triangle_queue_indices.length ∧
      q'.triangle_errors.length = q.triangle_errors.length ∧
      q'.pending_triangle_indices = q.pending_triangle_indices := by
  intro fuel
  induction fuel with
  | zero => intro q j _ _ hf; omega
  | succ fuel ih =>
    intro q j hq hjlen hjf
    simp only [PriorityQueue.upLoop]
    by_cases hj0 : j = 0
    · rw [if_pos hj0]
      exact ⟨q, rfl, hq, rfl, rfl, rfl, rfl⟩
    · rw [if_neg hj0]
      have hilen : (j - 1) / 2 < q.triangle_queue.length := by omega
      have hie : (j - 1) / 2 < q.triangle_errors.length := by
        rw [hq.1]; exact hilen
      have hje : j < q.triangle_errors.length := by
        rw [hq.1]; exact hjlen
      rw [less_ok hje hie]
      simp only [ok_bind]
      by_cases hP : q.triangle_errors.get ⟨(j - 1) / 2, hie⟩ <
          q.triangle_errors.get ⟨j, hje⟩
      · rw [decide_eq_true hP]
        simp only [if_true_bool]
        obtain ⟨q1, hswap, hq1, hl1, hl2, hl3, hl4⟩ := swap_ok hq hilen hjlen
        rw [hswap]
        simp only [ok_bind]
        have hj1 : (j - 1) / 2 < q1.triangle_queue.length := by omega
        have hf1 : (j - 1) / 2 < fuel := by omega
        obtain ⟨q2, hrec, hq2, hm1, hm2, hm3, hm4⟩ := ih q1 _ hq1 hj1 hf1
        exact ⟨q2, hrec, hq2, by omega, by omega, by omega, by rw [hm4, hl4]⟩
      · rw [decide_eq_false hP]
        simp only [if_false_bool]
        exact ⟨q, rfl, hq, rfl, rfl, rfl, rfl⟩

/-- The sift-down loop succeeds (given enough fuel, as supplied by its
callers) and preserves the invariant, the lengths and the pending list. -/
theorem downLoop_ok : ∀ (fuel : Nat) (q : PriorityQueue) (i n : Nat),
    heapInv q → n ≤ q.triangle_queue.length → n < fuel + i → 0 < fuel →
    ∃ q' m, q.downLoop fuel i n = .ok (q', m) ∧ heapInv q' ∧
      q'.triangle_queue.length = q.triangle_queue.length ∧
      q'.triangle_queue_indices.length = q.triangle_queue_indices.length ∧
      q'.triangle_errors.length = q.triangle_errors.length ∧
      q'.pending_triangle_indices = q.pending_triangle_indices := by
  intro fuel
  induction fuel with
  | zero => intro q i n _ _ _ hf; omega
  | succ fuel ih =>
    intro q i n hq hn hfi _
    simp only [PriorityQueue.downLoop]
    by_cases hj1 : 2 * i + 1 ≥ n
    · rw [if_pos hj1]
      exact ⟨q, i, rfl, hq, rfl, rfl, rfl, rfl⟩
    · rw [if_neg hj1]
      have hin : i < n := by omega
      have hj1n : 2 * i + 1 < n := by omega
      have hj1e : 2 * i + 1 < q.triangle_errors.length := by
        rw [hq.1]; omega
      have hie : i < q.triangle_errors.length := by
        rw [hq.1]; omega
      have hstep : ∀ (jj : Nat), jj < n → i < jj →
          ∃ q' m, (do
              let b ← q.less jj i
              if b then do
                let q' ← q.swap i jj
                q'.downLoop fuel jj n
              else .ok (q, i)) = .ok (q', m) ∧ heapInv q' ∧
            q'.triangle_queue.length = q.triangle_queue.length ∧
            q'.triangle_queue_indices.length = q.triangle_queue_indices.length ∧
            q'.triangle_errors.length = q.triangle_errors.length ∧
            q'.pending_triangle_indices = q.pending_triangle_indices := by
        intro jj hjj hijj
        have hjje : jj < q.triangle_errors.length := by
          rw [hq.1]; omega
        rw [less_ok hjje hie]
        simp only [ok_bind]
        by_cases hP : q.triangle_errors.get ⟨i, hie⟩ <
            q.triangle_errors.get ⟨jj, hjje⟩
        · rw [decide_eq_true hP]
          simp only [if_true_bool]
          obtain ⟨q1, hswap, hq1, hl1, hl2, hl3, hl4⟩ :=
            @swap_ok q i jj hq (by omega) (by omega)
          rw [hswap]
          simp only [ok_bind]
          have hrec := ih q1 jj n hq1 (by omega) (by omega) (by omega)
          obtain ⟨q2, m, hrec, hq2, hm1, hm2, hm3, hm4⟩ := hrec
          exact ⟨q2, m, hrec, hq2, by omega, by omega, by omega,
            by rw [hm4, hl4]⟩
        · rw [decide_eq_false hP]
          simp only [if_false_bool]
          exact ⟨q, i, rfl, hq, rfl, rfl, rfl, rfl⟩
      by_cases hj2 : 2 * i + 1 + 1 < n
      · simp only [if_pos hj2]
        have hj2e : 2 * i + 1 + 1 < q.triangle_errors.length := by
          rw [hq.1]; omega
        have hj1e2 : 2 * i + 1 < q.triangle_errors.length := by
          rw [hq.1]; omega
        rw [less_ok hj2e hj1e2]
        simp only [ok_bind, pure_bind]
        by_cases hQ : q.triangle_errors.get ⟨2 * i + 1, hj1e2⟩ <
            q.triangle_errors.get ⟨2 * i + 1 + 1, hj2e⟩
        · rw [decide_eq_true hQ]
          simp only [if_true_bool]
          exact hstep (2 * i + 1 + 1) (by omega) (by omega)
        · rw [decide_eq_false hQ]
          simp only [if_false_bool]
          exact hstep (2 * i + 1) (by omega) (by omega)
      · simp only [if_neg hj2]
        simp only [pure_bind]
        exact hstep (2 * i + 1) (by omega) (by omega)

/-- `pop_back` on a non-empty heap succeeds, removes the last slot and
clears its reverse-index entry, preserving the invariant. -/
theorem popBack_ok {q : PriorityQueue} (hq : heapInv q)
    (hne : q.triangle_queue ≠ []) :
    ∃ t q', q.popBack = .ok (some t, q') ∧ heapInv q' ∧
      q'.triangle_queue.length = q.triangle_queue.length - 1 ∧
      q'.triangle_queue_indices.length = q.triangle_queue_indices.length ∧
      q'.triangle_errors.length = q.triangle_errors.length - 1 ∧
      q'.pending_triangle_indices = q.pending_triangle_indices := by
  obtain ⟨hlen, hfw, hbw⟩ := hq
  have hlpos : 0 < q.triangle_queue.length := List.length_pos.mpr hne
  have hlast : q.triangle_queue.get? (q.triangle_queue.length - 1) =
      some (q.triangle_queue.get ⟨q.triangle_queue.length - 1, by omega⟩) :=
    List.get?_eq_get (by omega)
  set t := q.triangle_queue.get ⟨q.triangle_queue.length - 1, by omega⟩
    with htdef
  have hgl : q.triangle_queue.getLast? = some t := by
    rw [List.getLast?_eq_get?, hlast]
  have htR : t < q.triangle_queue_indices.length :=
    heapInv_entry_lt ⟨hlen, hfw, hbw⟩ hlast
  refine ⟨t, { q with
      triangle_queue := q.triangle_queue.dropLast
      triangle_errors := q.triangle_errors.dropLast
      triangle_queue_indices := q.triangle_queue_indices.set t none },
    ?_, ⟨?_, ?_, ?_⟩, ?_, ?_, ?_, ?_⟩
  · rw [PriorityQueue.popBack, hgl]
    simp only [setE, if_pos htR, ok_bind]
  · simp only [List.length_dropLast, hlen]
  · intro k t' hk
    simp only at hk ⊢
    have hkl : k < q.triangle_queue.length - 1 := by
      rcases List.get?_eq_some.mp hk with ⟨hbound, _⟩
      simpa [List.length_dropLast] using hbound
    rw [List.dropLast_eq_take, List.get?_take hkl] at hk
    have hold := hfw k t' hk
    have hne' : t' ≠ t := by
      intro h
      have := heapInv_inj ⟨hlen, hfw, hbw⟩ hk (h ▸ hlast :
        q.triangle_queue.get? (q.triangle_queue.length - 1) = some t')
      omega
    rw [List.get?_set_ne _ _ (fun h => hne' h.symm)]
    exact hold
  · intro t' m hm
    simp only at hm ⊢
    have ht' : t' ≠ t := by
      intro h
      rw [h, List.get?_set_eq_of_lt _ htR] at hm
      injection hm with hm
      exact Option.noConfusion hm
    rw [List.get?_set_ne _ _ (fun h => ht' h.symm)] at hm
    have hold := hbw t' m hm
    have hm1 : m ≠ q.triangle_queue.length - 1 := by
      intro h
      rw [h, hlast] at hold
      injection hold with hold
      exact ht' hold.symm
    have hm2 : m < q.triangle_queue.length := by
      rcases List.get?_eq_some.mp hold with ⟨hbound, _⟩
      exact hbound
    rw [List.dropLast_eq_take, List.get?_take (by omega)]
    exact hold
  · simp [List.length_dropLast]
  · simp
  · simp [List.length_dropLast]
  · simp

/-- `push` on a triangle that the reverse index knows (entry `none`, i.e.
not currently queued) succeeds and preserves the invariant. -/
theorem push_ok {q : PriorityQueue} {t : Nat} {e : ℚ} (hq : heapInv q)
    (hpre : q.triangle_queue_indices.get? t = some none) :
    ∃ q', q.push t e = .ok q' ∧ heapInv q' ∧
      q'.triangle_queue.length = q.triangle_queue.length + 1 ∧
      q'.triangle_queue_indices.length = q.triangle_queue_indices.length ∧
      q'.triangle_errors.length = q.triangle_errors.length + 1 ∧
      q'.pending_triangle_indices = q.pending_triangle_indices := by
  obtain ⟨hlen, hfw, hbw⟩ := hq
  have htR : t < q.triangle_queue_indices.length := by
    by_contra hcon
    rw [List.get?_eq_none.mpr (le_of_not_lt hcon)] at hpre
    exact Option.noConfusion hpre
  have hq1 : heapInv { q with
      triangle_queue_indices :=
        q.triangle_queue_indices.set t (some q.triangle_queue.length)
      triangle_queue := q.triangle_queue ++ [t]
      triangle_errors := q.triangle_errors ++ [e] } := by
    refine ⟨by simp [hlen], ?_, ?_⟩
    · intro k t' hk
      simp only at hk ⊢
      by_cases hk1 : k < q.triangle_queue.length
      · rw [List.get?_append hk1] at hk
        have hold := hfw k t' hk
        have hne' : t' ≠ t := by
          intro h
          rw [h, hpre] at hold
          injection hold with hold
          exact Option.noConfusion hold
        rw [List.get?_set_ne _ _ (fun h => hne' h.symm)]
        exact hold
      · have hk2 : q.triangle_queue.length ≤ k := le_of_not_lt hk1
        rw [List.get?_append_right hk2] at hk
        cases hsub : k - q.triangle_queue.length with
        | zero =>
          rw [hsub] at hk
          injection hk with hk
          subst hk
          have hkeq : k = q.triangle_queue.length := by omega
          rw [hkeq, List.get?_set_eq_of_lt _ htR]
        | succ m =>
          rw [hsub] at hk
          simp at hk
    · intro t' m hm
      simp only at hm ⊢
      by_cases ht' : t' = t
      · subst ht'
        rw [List.get?_set_eq_of_lt _ htR] at hm
        injection hm with hm
        injection hm with hm
        rw [← hm, List.get?_concat_length]
      · rw [List.get?_set_ne _ _ (fun h => ht' h.symm)] at hm
        have hold := hbw t' m hm
        have hm2 : m < q.triangle_queue.length := by
          rcases List.get?_eq_some.mp hold with ⟨hbound, _⟩
          exact hbound
        rw [List.get?_append hm2]
        exact hold
  obtain ⟨q2, hrec, hq2, hm1, hm2, hm3, hm4⟩ :=
    upLoop_ok (q.triangle_queue.length + 1) _ q.triangle_queue.length hq1
      (by simp) (by omega)
  refine ⟨q2, ?_, hq2, ?_, ?_, ?_, ?_⟩
  · rw [PriorityQueue.push]
    simp only [setE, if_pos htR, ok_bind, PriorityQueue.up]
    exact hrec
  · rw [hm1]; simp
  · rw [hm2]; simp
  · rw [hm3]; simp
  · rw [hm4]

/-- `pop` on a non-empty heap succeeds, returning some triangle, and
preserves the invariant. -/
theorem pop_ok {q : PriorityQueue} (hq : heapInv q)
    (hne : q.triangle_queue ≠ []) :
    ∃ t q', q.pop = .ok (some t, q') ∧ heapInv q' ∧
      q'.triangle_queue.length = q.triangle_queue.length - 1 ∧
      q'.triangle_queue_indices.length = q.triangle_queue_indices.length ∧
      q'.triangle_errors.length = q.triangle_errors.length - 1 ∧
      q'.pending_triangle_indices = q.pending_triangle_indices := by
  have hlpos : 0 < q.triangle_queue.length := List.length_pos.mpr hne
  simp only [PriorityQueue.pop]
  rw [if_neg (by omega : ¬ q.triangle_queue.length = 0)]
  obtain ⟨q1, hswap, hq1, hl1, hl2, hl3, hl4⟩ :=
    @swap_ok q 0 (q.triangle_queue.length - 1) hq (by omega) (by omega)
  rw [hswap]
  simp only [ok_bind, PriorityQueue.down]
  obtain ⟨q2, m, hdown, hq2, hm1, hm2, hm3, hm4⟩ :=
    downLoop_ok (q.triangle_queue.length - 1 + 1) q1 0
      (q.triangle_queue.length - 1) hq1 (by omega) (by omega) (by omega)
  rw [hdown]
  simp only [ok_bind]
  obtain ⟨t, q3, hpb, hq3, hn1, hn2, hn3, hn4⟩ :=
    popBack_ok hq2 (by
      have : q2.triangle_queue.length = q.triangle_queue.length := by omega
      intro hnil
      rw [hnil] at this
      simp at this
      omega)
  refine ⟨t, q3, ?_, hq3, by omega, by omega, by omega,
    by rw [hn4, hm4, hl4]⟩
  rw [hpb]

/-- Reading the element stored at an in-range reverse-index position. -/
theorem getE_remove_eq {q : PriorityQueue} {t : Nat}
    (ht : t < q.triangle_queue_indices.length) :
    getE (.removeIndexOOB t) q.triangle_queue_indices t =
      .ok (q.triangle_queue_indices.get ⟨t, ht⟩) := by
  rw [getE, List.get?_eq_get ht]

/-- `remove` on an in-capacity triangle index succeeds and preserves the
invariant and the reverse-index capacity; the pending list is either
untouched (heap branch) or has the requested triangle removed. -/
theorem remove_ok {q : PriorityQueue} {t : Nat} (hq : heapInv q)
    (hpre : t < q.triangle_queue_indices.length) :
    ∃ q', q.remove t = .ok q' ∧ heapInv q' ∧
      q'.triangle_queue.length ≤ q.triangle_queue.length ∧
      q'.triangle_queue_indices.length = q.triangle_queue_indices.length ∧
      (q'.pending_triangle_indices = q.pending_triangle_indices ∨
        q'.pending_triangle_indices =
          removePending q.pending_triangle_indices t) := by
  rw [PriorityQueue.remove, getE_remove_eq hpre]
  simp only [ok_bind]
  cases ho : q.triangle_queue_indices.get ⟨t, hpre⟩ with
  | none =>
    exact ⟨_, rfl, ⟨hq.1, hq.2.1, hq.2.2⟩, le_refl _, rfl, Or.inr rfl⟩
  | some index =>
    have hqidx : q.triangle_queue_indices.get? t = some (some index) := by
      rw [List.get?_eq_get hpre, ho]
    have hqi := hq.2.2 t index hqidx
    have hidx : index < q.triangle_queue.length := by
      rcases List.get?_eq_some.mp hqi with ⟨hbound, _⟩
      exact hbound
    dsimp only
    rw [if_neg (by omega : ¬ q.triangle_queue.length = 0)]
    by_cases hli : q.triangle_queue.length - 1 ≠ index
    · rw [if_pos hli]
      obtain ⟨q1, hswap, hq1, hl1, hl2, hl3, hl4⟩ :=
        @swap_ok q index (q.triangle_queue.length - 1) hq (by omega) (by omega)
      rw [hswap]
      simp only [ok_bind, PriorityQueue.down]
      obtain ⟨q2, m, hdown, hq2, hm1, hm2, hm3, hm4⟩ :=
        downLoop_ok (q.triangle_queue.length - 1 + 1) q1 index
          (q.triangle_queue.length - 1) hq1 (by omega) (by omega) (by omega)
      rw [hdown]
      simp only [ok_bind]
      have hfinish : ∀ (q' : PriorityQueue), heapInv q' →
          q'.triangle_queue.length = q.triangle_queue.length →
          q'.triangle_queue_indices.length = q.triangle_queue_indices.length →
          q'.triangle_errors.length = q.triangle_errors.length →
          q'.pending_triangle_indices = q.pending_triangle_indices →
          ∃ q'', (do
              let (_, r) ← q'.popBack
              (.ok r : Except Panic PriorityQueue)) = .ok q'' ∧
            heapInv q'' ∧
            q''.triangle_queue.length ≤ q.triangle_queue.length ∧
            q''.triangle_queue_indices.length =
              q.triangle_queue_indices.length ∧
            (q''.pending_triangle_indices = q.pending_triangle_indices ∨
              q''.pending_triangle_indices =
                removePending q.pending_triangle_indices t) := by
        intro q' hq' he1 he2 he3 he4
        obtain ⟨t', q'', hpb, hq'', hn1, hn2, hn3, hn4⟩ :=
          popBack_ok hq' (by
            intro hnil
            rw [hnil] at he1
            simp at he1
            omega)
        rw [hpb]
        simp only [ok_bind]
        exact ⟨q'', rfl, hq'', by omega, by omega, Or.inl (by rw [hn4, he4])⟩
      by_cases hmoved : index < m
      · rw [decide_eq_true hmoved]
        simp only [if_true_bool, pure_bind]
        exact hfinish q2 hq2 (by omega) (by omega) (by omega) (by rw [hm4, hl4])
      · rw [decide_eq_false hmoved]
        simp only [if_false_bool]
        obtain ⟨q3, hup, hq3, ho1, ho2, ho3, ho4⟩ :=
          upLoop_ok (index + 1) q2 index hq2 (by omega) (by omega)
        rw [PriorityQueue.up, hup]
        simp only [ok_bind]
        exact hfinish q3 hq3 (by omega) (by omega) (by omega)
          (by rw [ho4, hm4, hl4])
    · rw [if_neg hli]
      simp only [pure_bind]
      obtain ⟨t', q'', hpb, hq'', hn1, hn2, hn3, hn4⟩ :=
        popBack_ok hq (by
          intro hnil
          rw [hnil] at hidx
          simp at hidx)
      rw [hpb]
      simp only [ok_bind]
      exact ⟨q'', rfl, hq'', by omega, by omega, Or.inl hn4⟩

/-- A public priority-queue operation. -/
inductive QOp where
  | push (t : Nat) (err : ℚ) : QOp
  | pop : QOp
  | remove (t : Nat) : QOp
  deriving DecidableEq, Repr

/-- Run one public operation (discarding `pop`'s return value). -/
def applyOp (q : PriorityQueue) : QOp → Except Panic PriorityQueue
  | .push t e => q.push t e
  | .pop => do
    let (_, q') ← q.pop
    .ok q'
  | .remove t => q.remove t

/-- The precondition under which the driver uses each operation: `push`
only on a triangle the reverse index currently maps to `none` (in
capacity, not queued), `pop` only on a non-empty heap, `remove` only on an
in-capacity triangle index. -/
def opPre (q : PriorityQueue) : QOp → Prop
  | .push t _ => q.triangle_queue_indices.get? t = some none
  | .pop => q.triangle_queue ≠ []
  | .remove t => t < q.triangle_queue_indices.length

instance opPreDecidable (q : PriorityQueue) (op : QOp) :
    Decidable (opPre q op) :=
  match op with
  | .push t _ =>
    inferInstanceAs (Decidable (q.triangle_queue_indices.get? t = some none))
  | .pop => inferInstanceAs (Decidable (q.triangle_queue ≠ []))
  | .remove t =>
    inferInstanceAs (Decidable (t < q.triangle_queue_indices.length))

/-- Run a sequence of public operations. -/
def applyOps (q : PriorityQueue) : List QOp → Except Panic PriorityQueue
  | [] => .ok q
  | op :: rest => do
    let q' ← applyOp q op
    applyOps q' rest

/-- Every operation of the sequence is applied within its precondition. -/
def opsWithinPre (q : PriorityQueue) : List QOp → Prop
  | [] => True
  | op :: rest =>
    opPre q op ∧
      match applyOp q op with
      | .ok q' => opsWithinPre q' rest
      | .error _ => True

instance opsWithinPreDecidable : (ops : List QOp) → (q : PriorityQueue) →
    Decidable (opsWithinPre q ops)
  | [], _ => isTrue trivial
  | op :: rest, q =>
    have h : Decidable (match applyOp q op with
        | .ok q' => opsWithinPre q' rest
        | .error _ => True) :=
      match applyOp q op with
      | .ok q' => opsWithinPreDecidable rest q'
      | .error _ => isTrue trivial
    instDecidableAnd

/-- A freshly allocated queue satisfies the invariant. -/
theorem heapInv_new (n : Nat) : heapInv (PriorityQueue.new n) := by
  refine ⟨rfl, ?_, ?_⟩
  · intro i t h
    simp [PriorityQueue.new] at h
  · intro t i h
    rw [PriorityQueue.new] at h
    simp only at h
    rcases List.get?_eq_some.mp h with ⟨hlt, hget⟩
    rw [List.get_replicate] at hget
    exact Option.noConfusion hget

/-- A single in-precondition operation succeeds and preserves the
invariant. -/
theorem applyOp_ok {q : PriorityQueue} {op : QOp} (hq : heapInv q)
    (hpre : opPre q op) :
    ∃ q', applyOp q op = .ok q' ∧ heapInv q' := by
  cases op with
  | push t e =>
    obtain ⟨q', hok, hq', _⟩ := push_ok hq hpre
    exact ⟨q', hok, hq'⟩
  | pop =>
    obtain ⟨t, q', hok, hq', _⟩ := pop_ok hq hpre
    refine ⟨q', ?_, hq'⟩
    rw [applyOp, hok]
    rfl
  | remove t =>
    obtain ⟨q', hok, hq', _⟩ := remove_ok hq hpre
    exact ⟨q', hok, hq'⟩

/-- C8.  The reverse index of the priority queue stays consistent under
every sequence of `push`, `pop` and `remove` operations applied within
their preconditions: the sequence runs without panic, and in the final
state every triangle stored in the heap has its reverse-index entry equal
to its heap position (`heapInv`), while every in-capacity triangle not in
the heap has reverse-index entry `none`. -/
theorem queue_reverse_index_consistent (q : PriorityQueue) (ops : List QOp)
    (hinv : heapInv q) (hpre : opsWithinPre q ops) :
    ∃ q', applyOps q ops = .ok q' ∧ heapInv q' ∧
      (∀ t, t < q'.triangle_queue_indices.length →
        (∀ i, q'.triangle_queue.get? i ≠ some t) →
        q'.triangle_queue_indices.get? t = some none) := by
  induction ops generalizing q with
  | nil =>
    exact ⟨q, rfl, hinv, fun t ht habs => heapInv_not_mem hinv ht habs⟩
  | cons op rest ih =>
    obtain ⟨hp, hrest⟩ := hpre
    obtain ⟨q1, hok, hq1⟩ := applyOp_ok hinv hp
    rw [hok] at hrest
    simp only at hrest
    obtain ⟨q2, hops, hq2, hmem⟩ := ih q1 hq1 hrest
    refine ⟨q2, ?_, hq2, hmem⟩
    rw [applyOps, hok]
    simpa using hops

/-- Closed witness for `queue_reverse_index_consistent`: three pushes, a
pop and a removal on a capacity-3 queue, all within preconditions. -/
theorem queue_reverse_index_consistent_witness :
    ∃ q', applyOps (PriorityQueue.new 3)
        [QOp.push 0 1, QOp.push 1 2, QOp.push 2 3, QOp.pop, QOp.remove 0] =
          .ok q' ∧ heapInv q' ∧
      (∀ t, t < q'.triangle_queue_indices.length →
        (∀ i, q'.triangle_queue.get? i ≠ some t) →
        q'.triangle_queue_indices.get? t = some none) :=
  queue_reverse_index_consistent (PriorityQueue.new 3)
    [QOp.push 0 1, QOp.push 1 2, QOp.push 2 3, QOp.pop, QOp.remove 0]
    (heapInv_new 3) (by decide)

/-- The refinement loop can only return successfully with a root error at
most the tolerance. -/
theorem runLoop_ok_peek (me : ℚ) :
    ∀ (fuel : Nat) (s s' : Triangulation),
      Triangulation.runLoop s me fuel = .ok s' →
      ∃ e, s'.priority_queue.get_max_error = some e ∧ e ≤ me := by
  intro fuel
  induction fuel with
  | zero =>
    intro s s' h
    exact absurd h (by simp [Triangulation.runLoop])
  | succ fuel ih =>
    intro s s' h
    rw [Triangulation.runLoop] at h
    split at h
    · exact absurd h (by simp)
    · rename_i e hm
      split at h
      · obtain ⟨s₀, _, hrec⟩ := bind_eq_ok h
        exact ih s₀ s' hrec
      · rename_i hgt
        injection h with h
        subst h
        exact ⟨e, hm, le_of_not_lt hgt⟩

/-- C2.  Whenever `Triangulation::run` terminates normally (no error, no
panic), the error at the root of the priority queue — the maximum queued
error — is at most the tolerance: the loop exits only when
`get_max_error() ≤ τ`. -/
theorem runState_ok_peek (height_data : List Height) (width height : Nat)
    (me : ℚ) (fuel : Nat) (s' : Triangulation)
    (hok : Triangulation.runState height_data width height me fuel = .ok s') :
    ∃ e, s'.priority_queue.get_max_error = some e ∧ e ≤ me := by
  rw [Triangulation.runState] at hok
  obtain ⟨x1, _, hok⟩ := bind_eq_ok hok
  obtain ⟨t0, s1⟩ := x1
  obtain ⟨x2, _, hok⟩ := bind_eq_ok hok
  obtain ⟨t1, s2⟩ := x2
  obtain ⟨s3, _, hok⟩ := bind_eq_ok hok
  exact runLoop_ok_peek me fuel s3 s' hok

/-- Closed witness for `runState_ok_peek`: the flat 4×2 grid with τ = 1
terminates normally with root error 0 ≤ 1. -/
theorem runState_ok_peek_witness :
    ∃ e, (Triangulation.mk [0, 0, 0, 0, 0, 0, 0, 0] 4 2
        [(0, 0), (3, 0), (3, 1), (0, 1)] [2, 0, 3, 0, 2, 1]
        [some 3, none, none, some 0, none, none] [(0, 0), (0, 0)]
        (PriorityQueue.mk [0, 1] [some 0, some 1] [0, 0] [])
      ).priority_queue.get_max_error = some e ∧ e ≤ 1 :=
  runState_ok_peek [0, 0, 0, 0, 0, 0, 0, 0] 4 2 1 100
    (Triangulation.mk [0, 0, 0, 0, 0, 0, 0, 0] 4 2
        [(0, 0), (3, 0), (3, 1), (0, 1)] [2, 0, 3, 0, 2, 1]
        [some 3, none, none, some 0, none, none] [(0, 0), (0, 0)]
        (PriorityQueue.mk [0, 1] [some 0, some 1] [0, 0] []))
    (by decide)

/-! ## Capacity of the reverse index (C10) -/

/-- Inversion of a successful checked write. -/
theorem setE_eq_ok {α : Type} {tag : Panic} {l l' : List α} {i : Nat} {v : α}
    (h : setE tag l i v = .ok l') : l' = l.set i v ∧ i < l.length := by
  rw [setE] at h
  split at h
  · injection h with h
    exact ⟨h.symm, by assumption⟩
  · exact absurd h (by simp)

/-- Inversion of a failing checked write: the tag is the one supplied and
the index is out of range. -/
theorem setE_eq_error {α : Type} {tag p : Panic} {l : List α} {i : Nat}
    {v : α} (h : setE tag l i v = .error p) : p = tag ∧ l.length ≤ i := by
  rw [setE] at h
  split at h
  · exact absurd h (by simp)
  · injection h with h
    exact ⟨h.symm, by omega⟩

/-- Inversion of a successful checked read. -/
theorem getE_eq_ok {α : Type} {tag : Panic} {l : List α} {i : Nat} {a : α}
    (h : getE tag l i = .ok a) : l.get? i = some a := by
  rw [getE] at h
  split at h
  · injection h with h
    subst h
    assumption
  · exact absurd h (by simp)

/-- Inversion of a failing checked read. -/
theorem getE_eq_error {α : Type} {tag p : Panic} {l : List α} {i : Nat}
    (h : getE tag l i = .error p) : p = tag ∧ l.length ≤ i := by
  rw [getE] at h
  split at h
  · exact absurd h (by simp)
  · injection h with h
    subst h
    rename_i hnone
    exact ⟨rfl, List.get?_eq_none.mp hnone⟩

/-- A successful checked swap preserves the length. -/
theorem swapE_eq_ok {α : Type} {tag : Panic} {l l' : List α} {i j : Nat}
    (h : swapE tag l i j = .ok l') : l'.length = l.length := by
  rw [swapE] at h
  rcases bind_eq_ok h with ⟨vi, _, h⟩
  rcases bind_eq_ok h with ⟨vj, _, h⟩
  injection h with h
  rw [← h]
  simp

/-- A failing checked swap reports the supplied tag. -/
theorem swapE_eq_error {α : Type} {tag p : Panic} {l : List α} {i j : Nat}
    (h : swapE tag l i j = .error p) : p = tag := by
  rw [swapE] at h
  rcases bind_eq_error h with h | ⟨vi, _, h⟩
  · exact (getE_eq_error h).1
  · rcases bind_eq_error h with h | ⟨vj, _, h⟩
    · exact (getE_eq_error h).1
    · exact absurd h (by simp)

/-- A successful `swap` preserves the reverse-index length and the
pending list (no invariant assumed). -/
theorem swap_pres {q q' : PriorityQueue} {i j : Nat}
    (h : q.swap i j = .ok q') :
    q'.triangle_queue_indices.length = q.triangle_queue_indices.length ∧
    q'.pending_triangle_indices = q.pending_triangle_indices := by
  rw [PriorityQueue.swap] at h
  rcases bind_eq_ok h with ⟨pi, _, h⟩
  rcases bind_eq_ok h with ⟨pj, _, h⟩
  rcases bind_eq_ok h with ⟨r1, hr1, h⟩
  rcases bind_eq_ok h with ⟨r2, hr2, h⟩
  rcases bind_eq_ok h with ⟨tq, _, h⟩
  rcases bind_eq_ok h with ⟨te, _, h⟩
  injection h with h
  subst h
  obtain ⟨he1, _⟩ := setE_eq_ok hr1
  obtain ⟨he2, _⟩ := setE_eq_ok hr2
  subst he1
  subst he2
  simp

/-- A failing `swap` reports the generic index tag. -/
theorem swap_error_tag {q : PriorityQueue} {i j : Nat} {p : Panic}
    (h : q.swap i j = .error p) : p = .idxOOB := by
  rw [PriorityQueue.swap] at h
  rcases bind_eq_error h with h | ⟨pi, _, h⟩
  · exact (getE_eq_error h).1
  rcases bind_eq_error h with h | ⟨pj, _, h⟩
  · exact (getE_eq_error h).1
  rcases bind_eq_error h with h | ⟨r1, _, h⟩
  · exact (setE_eq_error h).1
  rcases bind_eq_error h with h | ⟨r2, _, h⟩
  · exact (setE_eq_error h).1
  rcases bind_eq_error h with h | ⟨tq, _, h⟩
  · exact swapE_eq_error h
  rcases bind_eq_error h with h | ⟨te, _, h⟩
  · exact swapE_eq_error h
  · exact absurd h (by simp)

/-- A failing `less` reports the generic index tag. -/
theorem less_error_tag {q : PriorityQueue} {i j : Nat} {p : Panic}
    (h : q.less i j = .error p) : p = .idxOOB := by
  rw [PriorityQueue.less] at h
  rcases bind_eq_error h with h | ⟨ei, _, h⟩
  · exact (getE_eq_error h).1
  rcases bind_eq_error h with h | ⟨ej, _, h⟩
  · exact (getE_eq_error h).1
  · exact absurd h (by simp)

/-- A successful sift-up preserves the reverse-index length and the
pending list. -/
theorem upLoop_pres : ∀ (fuel : Nat) (q : PriorityQueue) (j : Nat)
    (q' : PriorityQueue), q.upLoop fuel j = .ok q' →
    q'.triangle_queue_indices.length = q.triangle_queue_indices.length ∧
    q'.pending_triangle_indices = q.pending_triangle_indices := by
  intro fuel
  induction fuel with
  | zero => intro q j q' h; exact absurd h (by simp [PriorityQueue.upLoop])
  | succ fuel ih =>
    intro q j q' h
    simp only [PriorityQueue.upLoop] at h
    split at h
    · injection h with h
      subst h
      exact ⟨rfl, rfl⟩
    · rcases bind_eq_ok h with ⟨b, _, h⟩
      split at h
      · rcases bind_eq_ok h with ⟨q1, hq1, h⟩
        obtain ⟨e1, e2⟩ := swap_pres hq1
        obtain ⟨f1, f2⟩ := ih q1 _ q' h
        exact ⟨by rw [f1, e1], by rw [f2, e2]⟩
      · injection h with h
        subst h
        exact ⟨rfl, rfl⟩

/-- A failing sift-up reports only the generic tags. -/
theorem upLoop_error_tag : ∀ (fuel : Nat) (q : PriorityQueue) (j : Nat)
    (p : Panic), q.upLoop fuel j = .error p → p = .idxOOB ∨ p = .fuelOut := by
  intro fuel
  induction fuel with
  | zero =>
    intro q j p h
    simp only [PriorityQueue.upLoop] at h
    injection h with h
    exact Or.inr h.symm
  | succ fuel ih =>
    intro q j p h
    simp only [PriorityQueue.upLoop] at h
    split at h
    · exact absurd h (by simp)
    · rcases bind_eq_error h with h | ⟨b, _, h⟩
      · exact Or.inl (less_error_tag h)
      split at h
      · rcases bind_eq_error h with h | ⟨q1, _, h⟩
        · exact Or.inl (swap_error_tag h)
        · exact ih q1 _ p h
      · exact absurd h (by simp)

/-- A successful sift-down preserves the reverse-index length and the
pending list. -/
theorem downLoop_pres : ∀ (fuel : Nat) (q : PriorityQueue) (i n : Nat)
    (q' : PriorityQueue) (m : Nat), q.downLoop fuel i n = .ok (q', m) →
    q'.triangle_queue_indices.length = q.triangle_queue_indices.length ∧
    q'.pending_triangle_indices = q.pending_triangle_indices := by
  intro fuel
  induction fuel with
  | zero =>
    intro q i n q' m h
    exact absurd h (by simp [PriorityQueue.downLoop])
  | succ fuel ih =>
    intro q i n q' m h
    simp only [PriorityQueue.downLoop] at h
    split at h
    · injection h with h
      injection h with h1 h2
      subst h1
      exact ⟨rfl, rfl⟩
    · have tail : ∀ (y : Nat), (do
            let b ← q.less y i
            if b then do
              let q1 ← q.swap i y
              q1.downLoop fuel y n
            else .ok (q, i)) = .ok (q', m) →
          q'.triangle_queue_indices.length =
            q.triangle_queue_indices.length ∧
          q'.pending_triangle_indices = q.pending_triangle_indices := by
        intro y hh
        rcases bind_eq_ok hh with ⟨b, _, hh⟩
        split at hh
        · rcases bind_eq_ok hh with ⟨q1, hq1, hh⟩
          obtain ⟨e1, e2⟩ := swap_pres hq1
          obtain ⟨f1, f2⟩ := ih q1 _ _ q' m hh
          exact ⟨by rw [f1, e1], by rw [f2, e2]⟩
        · injection hh with hh
          injection hh with h1 h2
          subst h1
          exact ⟨rfl, rfl⟩
      split at h
      · rcases bind_eq_ok h with ⟨b1, _, h⟩
        rcases bind_eq_ok h with ⟨y, _, h⟩
        exact tail y h
      · rcases bind_eq_ok h with ⟨y, _, h⟩
        exact tail y h

/-- A failing sift-down reports only the generic tags. -/
theorem downLoop_error_tag : ∀ (fuel : Nat) (q : PriorityQueue) (i n : Nat)
    (p : Panic), q.downLoop fuel i n = .error p →
    p = .idxOOB ∨ p = .fuelOut := by
  intro fuel
  induction fuel with
  | zero =>
    intro q i n p h
    simp only [PriorityQueue.downLoop] at h
    injection h with h
    exact Or.inr h.symm
  | succ fuel ih =>
    intro q i n p h
    simp only [PriorityQueue.downLoop] at h
    split at h
    · exact absurd h (by simp)
    · have tail : ∀ (y : Nat), (do
            let b ← q.less y i
            if b then do
              let q1 ← q.swap i y
              q1.downLoop fuel y n
            else .ok (q, i)) = .error p →
          p = .idxOOB ∨ p = .fuelOut := by
        intro y hh
        rcases bind_eq_error hh with hh | ⟨b, _, hh⟩
        · exact Or.inl (less_error_tag hh)
        split at hh
        · rcases bind_eq_error hh with hh | ⟨q1, _, hh⟩
          · exact Or.inl (swap_error_tag hh)
          · exact ih q1 _ _ p hh
        · exact absurd hh (by simp)
      split at h
      · rcases bind_eq_error h with h | ⟨b1, _, h⟩
        · exact Or.inl (less_error_tag h)
        rcases bind_eq_error h with h | ⟨y, _, h⟩
        · exact absurd h (fun hcon => Except.noConfusion hcon)
        · exact tail y h
      · rcases bind_eq_error h with h | ⟨y, _, h⟩
        · exact absurd h (fun hcon => Except.noConfusion hcon)
        · exact tail y h

/-- A successful `pop_back` preserves the reverse-index length and the
pending list. -/
theorem popBack_pres {q q' : PriorityQueue} {o : Option Nat}
    (h : q.popBack = .ok (o, q')) :
    q'.triangle_queue_indices.length = q.triangle_queue_indices.length ∧
    q'.pending_triangle_indices = q.pending_triangle_indices := by
  rw [PriorityQueue.popBack] at h
  split at h
  · injection h with h
    injection h with h1 h2
    subst h2
    exact ⟨rfl, rfl⟩
  · rcases bind_eq_ok h with ⟨r, hr, h⟩
    injection h with h
    injection h with h1 h2
    subst h2
    obtain ⟨he, _⟩ := setE_eq_ok hr
    subst he
    simp

/-- A failing `pop_back` reports the generic index tag. -/
theorem popBack_error_tag {q : PriorityQueue} {p : Panic}
    (h : q.popBack = .error p) : p = .idxOOB := by
  rw [PriorityQueue.popBack] at h
  split at h
  · exact absurd h (by simp)
  · rcases bind_eq_error h with h | ⟨r, _, h⟩
    · exact (setE_eq_error h).1
    · exact absurd h (by simp)

/-- A successful `pop` preserves the reverse-index length and the pending
list. -/
theorem pop_pres {q q' : PriorityQueue} {o : Option Nat}
    (h : q.pop = .ok (o, q')) :
    q'.triangle_queue_indices.length = q.triangle_queue_indices.length ∧
    q'.pending_triangle_indices = q.pending_triangle_indices := by
  simp only [PriorityQueue.pop] at h
  split at h
  · exact absurd h (by simp)
  · rcases bind_eq_ok h with ⟨q1, hq1, h⟩
    rcases bind_eq_ok h with ⟨⟨q2, mv⟩, hq2, h⟩
    simp only [PriorityQueue.down] at hq2
    rcases bind_eq_ok hq2 with ⟨⟨q2a, mi⟩, hdl, htail⟩
    simp only at htail
    injection htail with htail
    injection htail with ha hb
    subst ha
    simp only at h
    obtain ⟨e1, e2⟩ := swap_pres hq1
    obtain ⟨f1, f2⟩ := downLoop_pres _ _ _ _ _ _ hdl
    obtain ⟨g1, g2⟩ := popBack_pres h
    exact ⟨by rw [g1, f1, e1], by rw [g2, f2, e2]⟩

/-- First-index search: a found position is in range and stores the sought
value (`Nat` instances, where `==` is propositional equality). -/
theorem indexOf?_spec : ∀ (p : List Nat) (t pos : Nat),
    p.indexOf? t = some pos → pos < p.length ∧ p.get? pos = some t := by
  intro p
  induction p with
  | nil => intro t pos h; exact absurd h (by simp)
  | cons a rest ih =>
    intro t pos h
    rw [List.indexOf?_cons] at h
    by_cases hat : a = t
    · rw [if_pos (by simp [hat])] at h
      injection h with h
      subst h
      exact ⟨by simp, by simp [hat]⟩
    · rw [if_neg (by simp [hat])] at h
      rcases Option.map_eq_some'.mp h with ⟨pos', hpos', hsucc⟩
      obtain ⟨h1, h2⟩ := ih t pos' hpos'
      subst hsucc
      exact ⟨by simpa using h1, by simpa using h2⟩

/-- The pending-list removal keeps every other element. -/
theorem removePending_mem {p : List Nat} {t x : Nat} (hx : x ∈ p)
    (hxt : x ≠ t) : x ∈ removePending p t := by
  rw [removePending]
  cases h : p.indexOf? t with
  | none => exact hx
  | some pos =>
    obtain ⟨hpos, hget⟩ := indexOf?_spec p t pos h
    cases hlast : p.getLast? with
    | none =>
      rw [List.getLast?_eq_get?] at hlast
      rw [List.get?_eq_none] at hlast
      omega
    | some last =>
      have hlpos : 0 < p.length := by omega
      have hlast' : p.get? (p.length - 1) = some last := by
        rw [← List.getLast?_eq_get?, hlast]
      obtain ⟨k, hk⟩ := List.get?_of_mem hx
      have hkpos : k ≠ pos := by
        intro hcon
        rw [hcon, hget] at hk
        injection hk with hk
        exact hxt hk.symm
      have hklen : k < p.length := by
        rcases List.get?_eq_some.mp hk with ⟨hb, _⟩
        exact hb
      rw [List.mem_iff_get?]
      by_cases hkl : k = p.length - 1
      · -- x is the last element, so it is copied into position pos
        have hlx : last = x := by
          rw [hkl, hlast'] at hk
          injection hk
        have hposl : pos < p.length - 1 := by
          rcases Nat.lt_or_ge pos (p.length - 1) with hp | hp
          · exact hp
          · exfalso
            have : pos = p.length - 1 := by omega
            rw [this, hlast'] at hget
            injection hget with hget
            exact hxt (by rw [← hlx, hget])
        refine ⟨pos, ?_⟩
        show ((p.set pos last).dropLast).get? pos = some x
        rw [List.dropLast_eq_take, List.get?_take (by simpa using hposl),
          List.get?_set_eq_of_lt _ hpos, hlx]
      · refine ⟨k, ?_⟩
        have hkl2 : k < p.length - 1 := by omega
        show ((p.set pos last).dropLast).get? k = some x
        rw [List.dropLast_eq_take, List.get?_take (by simpa using hkl2),
          List.get?_set_ne _ _ (fun hcon => hkpos hcon.symm)]
        exact hk

/-- A successful `remove` implies the requested index was within the
reverse-index capacity; the capacity is unchanged, and the pending list is
either untouched or has the requested triangle removed. -/
theorem remove_ok_inv {q q' : PriorityQueue} {t : Nat}
    (h : q.remove t = .ok q') :
    t < q.triangle_queue_indices.length ∧
    q'.triangle_queue_indices.length = q.triangle_queue_indices.length ∧
    (q'.pending_triangle_indices = q.pending_triangle_indices ∨
      q'.pending_triangle_indices =
        removePending q.pending_triangle_indices t) := by
  rw [PriorityQueue.remove] at h
  rcases bind_eq_ok h with ⟨rt, hrt, h⟩
  have hget := getE_eq_ok hrt
  have hlt : t < q.triangle_queue_indices.length := by
    rcases List.get?_eq_some.mp hget with ⟨hb, _⟩
    exact hb
  refine ⟨hlt, ?_⟩
  cases rt with
  | none =>
    simp only at h
    injection h with h
    subst h
    exact ⟨rfl, Or.inr rfl⟩
  | some index =>
    simp only at h
    split at h
    · exact absurd h (by simp)
    · have tail : ∀ (y : PriorityQueue),
          y.triangle_queue_indices.length =
            q.triangle_queue_indices.length →
          y.pending_triangle_indices = q.pending_triangle_indices →
          (do let d ← y.popBack
              (Except.ok d.2 : Except Panic PriorityQueue)) = .ok q' →
          q'.triangle_queue_indices.length =
            q.triangle_queue_indices.length ∧
          (q'.pending_triangle_indices = q.pending_triangle_indices ∨
            q'.pending_triangle_indices =
              removePending q.pending_triangle_indices t) := by
        intro y hy1 hy2 hh
        rcases bind_eq_ok hh with ⟨⟨o2, r⟩, hpb, hh⟩
        injection hh with hh
        subst hh
        obtain ⟨g1, g2⟩ := popBack_pres hpb
        exact ⟨by rw [g1, hy1], Or.inl (by rw [g2, hy2])⟩
      split at h
      · rcases bind_eq_ok h with ⟨q1, hq1, h⟩
        rcases bind_eq_ok h with ⟨d, hd, h⟩
        simp only [PriorityQueue.down] at hd
        rcases bind_eq_ok hd with ⟨⟨q2a, mi⟩, hdl, ht2⟩
        injection ht2 with ht2
        subst ht2
        obtain ⟨e1, e2⟩ := swap_pres hq1
        obtain ⟨f1, f2⟩ := downLoop_pres _ _ _ _ _ _ hdl
        split at h
        · rw [pure_bind] at h
          refine tail _ ?_ ?_ h
          · show q2a.triangle_queue_indices.length = _
            rw [f1, e1]
          · show q2a.pending_triangle_indices = _
            rw [f2, e2]
        · rcases bind_eq_ok h with ⟨y, hup, h⟩
          rw [PriorityQueue.up] at hup
          obtain ⟨u1, u2⟩ := upLoop_pres _ _ _ _ hup
          refine tail _ ?_ ?_ h
          · rw [u1]
            show q2a.triangle_queue_indices.length = _
            rw [f1, e1]
          · rw [u2]
            show q2a.pending_triangle_indices = _
            rw [f2, e2]
      · rw [pure_bind] at h
        exact tail _ rfl rfl h

/-- `push` panics with its dedicated tag exactly when the pushed triangle
index reaches beyond the reverse-index capacity. -/
theorem push_oob_iff (q : PriorityQueue) (t : Nat) (e : ℚ) :
    q.push t e = .error (.pushIndexOOB t) ↔
      q.triangle_queue_indices.length ≤ t := by
  constructor
  · intro h
    rw [PriorityQueue.push] at h
    rcases bind_eq_error h with h | ⟨r, hr, h⟩
    · exact (setE_eq_error h).2
    · rw [PriorityQueue.up] at h
      rcases upLoop_error_tag _ _ _ _ h with hc | hc <;> exact absurd hc (by simp)
  · intro hle
    rw [PriorityQueue.push]
    have : setE (Panic.pushIndexOOB t) q.triangle_queue_indices t
        (some q.triangle_queue.length) = .error (.pushIndexOOB t) := by
      rw [setE, if_neg (by omega)]
    rw [this]
    rfl

/-- `remove` panics with its dedicated tag exactly when the requested
triangle index reaches beyond the reverse-index capacity. -/
theorem remove_oob_iff (q : PriorityQueue) (t : Nat) :
    q.remove t = .error (.removeIndexOOB t) ↔
      q.triangle_queue_indices.length ≤ t := by
  constructor
  · intro h
    rw [PriorityQueue.remove] at h
    rcases bind_eq_error h with h | ⟨rt, hrt, h⟩
    · exact (getE_eq_error h).2
    · exfalso
      cases rt with
      | none => simp at h
      | some index =>
        simp only at h
        split at h
        · injection h with h
          exact Panic.noConfusion h
        · have tailE : ∀ (y : PriorityQueue),
              (do let d ← y.popBack
                  (Except.ok d.2 : Except Panic PriorityQueue)) =
                .error (.removeIndexOOB t) → False := by
            intro y hh
            rcases bind_eq_error hh with hh | ⟨d, _, hh⟩
            · exact absurd (popBack_error_tag hh) (by simp)
            · exact absurd hh (by simp)
          split at h
          · rcases bind_eq_error h with h | ⟨q1, hq1, h⟩
            · exact absurd (swap_error_tag h) (by simp)
            · rcases bind_eq_error h with h | ⟨d, hd, h⟩
              · simp only [PriorityQueue.down] at h
                rcases bind_eq_error h with h | ⟨x, _, h⟩
                · rcases downLoop_error_tag _ _ _ _ _ h with hc | hc <;>
                    exact absurd hc (by simp)
                · exact absurd h (by simp)
              · split at h
                · rw [pure_bind] at h
                  exact tailE _ h
                · rcases bind_eq_error h with h | ⟨y, _, h⟩
                  · rw [PriorityQueue.up] at h
                    rcases upLoop_error_tag _ _ _ _ h with hc | hc <;>
                      exact absurd hc (by simp)
                  · exact tailE _ h
          · rw [pure_bind] at h
            exact tailE _ h
  · intro hle
    rw [PriorityQueue.remove]
    have : getE (Panic.removeIndexOOB t) q.triangle_queue_indices t =
        .error (.removeIndexOOB t) := by
      rw [getE, List.get?_eq_none.mpr hle]
    rw [this]
    rfl

/-- A successful `push` implies the pushed index is within the
reverse-index capacity; the capacity and the pending list are unchanged. -/
theorem push_ok_inv {q q' : PriorityQueue} {t : Nat} {e : ℚ}
    (h : q.push t e = .ok q') :
    t < q.triangle_queue_indices.length ∧
    q'.triangle_queue_indices.length = q.triangle_queue_indices.length ∧
    q'.pending_triangle_indices = q.pending_triangle_indices := by
  rw [PriorityQueue.push] at h
  rcases bind_eq_ok h with ⟨r, hr, h⟩
  obtain ⟨hrv, hlt⟩ := setE_eq_ok hr
  rw [PriorityQueue.up] at h
  obtain ⟨u1, u2⟩ := upLoop_pres _ _ _ _ h
  refine ⟨hlt, ?_, ?_⟩
  · rw [u1]
    show r.length = _
    rw [hrv, List.length_set]
  · exact u2

/-- `liftP` is the identity on successes. -/
theorem liftP_eq_ok {α : Type} {x : Except Panic α} {a : α} :
    liftP x = .ok a ↔ x = .ok a := by
  cases x <;> simp [liftP]

/-- Every existing triangle slot is accounted for: its index is within the
reverse-index capacity (so the queue can address it) or it is still waiting
in the pending list (prefixed by the drained triangles `extra` while a
flush is in progress). -/
def slotsCovered (s : Triangulation) (extra : List Nat) : Prop :=
  ∀ t : Nat, 3 * t < s.triangles.length →
    t < s.priority_queue.triangle_queue_indices.length ∨
    t ∈ extra ++ s.priority_queue.pending_triangle_indices

/-- A successful `remove` keeps every pending triangle accounted for. -/
theorem remove_cover {q q' : PriorityQueue} {t0 : Nat}
    (h : q.remove t0 = .ok q') (x : Nat)
    (hx : x ∈ q.pending_triangle_indices) :
    x < q'.triangle_queue_indices.length ∨
    x ∈ q'.pending_triangle_indices := by
  obtain ⟨h1, h2, h3⟩ := remove_ok_inv h
  by_cases hxt : x = t0
  · left
    rw [h2, hxt]
    exact h1
  · rcases h3 with h3 | h3
    · right
      rw [h3]
      exact hx
    · right
      rw [h3]
      exact removePending_mem hx hxt

/-- A successful `add_triangle` keeps the reverse-index capacity and the
multiple-of-three triangle count, extends the pending list, and accounts
for every slot: an old one, or the new pending triangle. -/
theorem add_triangle_ok_inv {s s' : Triangulation}
    {tri : Nat × Nat × Nat} {hab hbc hca : Option Nat}
    {strat : AddTriangleStrategy} {idx : Nat}
    (h : s.add_triangle tri hab hbc hca strat = .ok (idx, s'))
    (h3 : 3 ∣ s.triangles.length) :
    s'.priority_queue.triangle_queue_indices.length =
      s.priority_queue.triangle_queue_indices.length ∧
    3 ∣ s'.triangles.length ∧
    (∀ x, x ∈ s.priority_queue.pending_triangle_indices →
      x ∈ s'.priority_queue.pending_triangle_indices) ∧
    (∀ t, 3 * t < s'.triangles.length → 3 * t < s.triangles.length ∨
      t ∈ s'.priority_queue.pending_triangle_indices) := by
  cases strat with
  | update index =>
    simp only [Triangulation.add_triangle] at h
    rcases bind_eq_ok h with ⟨tr1, ht1, h⟩
    rcases bind_eq_ok h with ⟨tr2, ht2, h⟩
    rcases bind_eq_ok h with ⟨tr3, ht3, h⟩
    rcases bind_eq_ok h with ⟨he1, _, h⟩
    rcases bind_eq_ok h with ⟨he2, _, h⟩
    rcases bind_eq_ok h with ⟨he3, _, h⟩
    rcases bind_eq_ok h with ⟨⟨idx0, s1⟩, hb, h⟩
    injection hb with hb
    injection hb with hidx hs1
    rcases bind_eq_ok h with ⟨ha1, _, h⟩
    rcases bind_eq_ok h with ⟨ha2, _, h⟩
    rcases bind_eq_ok h with ⟨ha3, _, h⟩
    injection h with h
    injection h with hidx2 hs2
    subst hs2
    subst hs1
    subst hidx
    have htrlen : tr3.length = s.triangles.length := by
      rw [(setE_eq_ok ht3).1, List.length_set, (setE_eq_ok ht2).1,
        List.length_set, (setE_eq_ok ht1).1, List.length_set]
    refine ⟨rfl, ?_, ?_, ?_⟩
    · show 3 ∣ tr3.length
      rw [htrlen]
      exact h3
    · intro x hx
      show x ∈ s.priority_queue.pending_triangle_indices ++ _
      exact List.mem_append_left _ hx
    · intro t ht
      left
      have ht' : 3 * t < tr3.length := ht
      exact lt_of_lt_of_eq ht' htrlen
  | create =>
    simp only [Triangulation.add_triangle] at h
    rcases bind_eq_ok h with ⟨⟨idx0, s1⟩, hb, h⟩
    injection hb with hb
    injection hb with hidx hs1
    rcases bind_eq_ok h with ⟨ha1, _, h⟩
    rcases bind_eq_ok h with ⟨ha2, _, h⟩
    rcases bind_eq_ok h with ⟨ha3, _, h⟩
    injection h with h
    injection h with hidx2 hs2
    subst hs2
    subst hs1
    subst hidx
    have htr : (s.triangles ++ [tri.1, tri.2.1, tri.2.2]).length =
        s.triangles.length + 3 := by simp
    refine ⟨rfl, ?_, ?_, ?_⟩
    · show 3 ∣ (s.triangles ++ [tri.1, tri.2.1, tri.2.2]).length
      rw [htr]
      obtain ⟨m, hm⟩ := h3
      exact ⟨m + 1, by omega⟩
    · intro x hx
      show x ∈ s.priority_queue.pending_triangle_indices ++ _
      exact List.mem_append_left _ hx
    · intro t ht
      have ht' : 3 * t <
          (s.triangles ++ [tri.1, tri.2.1, tri.2.2]).length := ht
      rw [htr] at ht'
      by_cases hlt : 3 * t < s.triangles.length
      · exact Or.inl hlt
      · right
        obtain ⟨m, hm⟩ := h3
        have htm : t = m := by omega
        show t ∈ s.priority_queue.pending_triangle_indices ++
          [s.triangles.length / 3]
        refine List.mem_append_right _ ?_
        have hq : s.triangles.length / 3 = m := by omega
        rw [hq, htm]
        exact List.mem_singleton_self m

/-- A successful `find_candidate` leaves the triangle array untouched,
keeps the reverse-index capacity and the pending list, and witnesses that
the rasterized triangle index fits the capacity (its `push` succeeded). -/
theorem find_candidate_inv {s s' : Triangulation} {t : Nat}
    (h : s.find_candidate t = .ok s') :
    s'.triangles = s.triangles ∧
    s'.priority_queue.triangle_queue_indices.length =
      s.priority_queue.triangle_queue_indices.length ∧
    s'.priority_queue.pending_triangle_indices =
      s.priority_queue.pending_triangle_indices ∧
    t < s.priority_queue.triangle_queue_indices.length := by
  simp only [Triangulation.find_candidate] at h
  rcases bind_eq_ok h with ⟨va, _, h⟩
  rcases bind_eq_ok h with ⟨vb, _, h⟩
  rcases bind_eq_ok h with ⟨vc, _, h⟩
  rcases bind_eq_ok h with ⟨pa, _, h⟩
  rcases bind_eq_ok h with ⟨pb, _, h⟩
  rcases bind_eq_ok h with ⟨pc, _, h⟩
  rcases bind_eq_ok h with ⟨za, _, h⟩
  rcases bind_eq_ok h with ⟨zb, _, h⟩
  rcases bind_eq_ok h with ⟨zc, _, h⟩
  rcases bind_eq_ok h with ⟨⟨merr, mpt⟩, _, h⟩
  rcases bind_eq_ok h with ⟨cps, _, h⟩
  rcases bind_eq_ok h with ⟨pq, hpq, h⟩
  injection h with h
  obtain ⟨p1, p2, p3⟩ := push_ok_inv hpq
  subst h
  exact ⟨rfl, p2, p3, p1⟩

/-- Flushing a drained pending list whose triangles cover the outstanding
slots leaves the triangle array, the capacity and the queue's own pending
list unchanged, and re-establishes the cover without the drained list. -/
theorem flushList_inv : ∀ (pending_list : List Nat) (s s' : Triangulation),
    s.flushList pending_list = .ok s' →
    slotsCovered s pending_list →
    s'.triangles = s.triangles ∧
    s'.priority_queue.triangle_queue_indices.length =
      s.priority_queue.triangle_queue_indices.length ∧
    s'.priority_queue.pending_triangle_indices =
      s.priority_queue.pending_triangle_indices ∧
    slotsCovered s' [] := by
  intro pending_list
  induction pending_list with
  | nil =>
    intro s s' h hc
    simp only [Triangulation.flushList] at h
    injection h with h
    subst h
    exact ⟨rfl, rfl, rfl, hc⟩
  | cons t rest ih =>
    intro s s' h hc
    simp only [Triangulation.flushList] at h
    rcases bind_eq_ok h with ⟨s1, h1, h⟩
    obtain ⟨e1, e2, e3, e4⟩ := find_candidate_inv h1
    have hc1 : slotsCovered s1 rest := by
      intro u hu
      rw [e1] at hu
      rcases hc u hu with hlt | hmem
      · left
        rw [e2]
        exact hlt
      · rw [List.mem_append] at hmem
        rcases hmem with hmem | hmem
        · rcases List.mem_cons.mp hmem with rfl | hmem
          · left
            rw [e2]
            exact e4
          · right
            rw [List.mem_append, e3]
            exact Or.inl hmem
        · right
          rw [List.mem_append, e3]
          exact Or.inr hmem
    obtain ⟨f1, f2, f3, f4⟩ := ih s1 s' h hc1
    exact ⟨by rw [f1, e1], by rw [f2, e2], by rw [f3, e3], f4⟩

/-- `flush` under a slot cover: the triangle array and the capacity are
unchanged, the pending list is drained, and afterwards every slot is
within capacity or pending (with nothing pending). -/
theorem flush_inv {s s' : Triangulation} (h : s.flush = .ok s')
    (hc : slotsCovered s []) :
    s'.triangles = s.triangles ∧
    s'.priority_queue.triangle_queue_indices.length =
      s.priority_queue.triangle_queue_indices.length ∧
    s'.priority_queue.pending_triangle_indices = [] ∧
    slotsCovered s' [] := by
  simp only [Triangulation.flush, PriorityQueue.consume_pending_triangles]
    at h
  have hc0 : slotsCovered
      { s with priority_queue :=
          { s.priority_queue with pending_triangle_indices := [] } }
      s.priority_queue.pending_triangle_indices := by
    intro u hu
    rcases hc u hu with hlt | hmem
    · exact Or.inl hlt
    · right
      rw [List.mem_append]
      left
      simpa using hmem
  obtain ⟨f1, f2, f3, f4⟩ := flushList_inv _ _ _ h hc0
  exact ⟨f1, f2, f3, f4⟩

/-- Replacing the queue by the result of a successful `remove` keeps the
capacity and the slot cover. -/
theorem remove_cover_state {s : Triangulation} {pq' : PriorityQueue}
    {t0 : Nat} (h : s.priority_queue.remove t0 = .ok pq')
    (hc : slotsCovered s []) :
    pq'.triangle_queue_indices.length =
      s.priority_queue.triangle_queue_indices.length ∧
    slotsCovered { s with priority_queue := pq' } [] := by
  obtain ⟨h1, h2, h3⟩ := remove_ok_inv h
  refine ⟨h2, ?_⟩
  intro u hu
  rcases hc u hu with hlt | hm
  · left
    show u < pq'.triangle_queue_indices.length
    rw [h2]
    exact hlt
  · have hm' : u ∈ s.priority_queue.pending_triangle_indices := by
      simpa using hm
    rcases remove_cover h u hm' with hlt | hmem
    · exact Or.inl hlt
    · right
      simpa using hmem

/-- A successful `add_triangle` preserves the slot cover together with the
capacity and divisibility facts. -/
theorem add_triangle_cover {s s' : Triangulation}
    {tri : Nat × Nat × Nat} {hab hbc hca : Option Nat}
    {strat : AddTriangleStrategy} {idx : Nat}
    (h : s.add_triangle tri hab hbc hca strat = .ok (idx, s'))
    (h3 : 3 ∣ s.triangles.length) (hc : slotsCovered s []) :
    s'.priority_queue.triangle_queue_indices.length =
      s.priority_queue.triangle_queue_indices.length ∧
    3 ∣ s'.triangles.length ∧ slotsCovered s' [] := by
  obtain ⟨a1, a2, a3, a4⟩ := add_triangle_ok_inv h h3
  refine ⟨a1, a2, ?_⟩
  intro u hu
  rcases a4 u hu with hold | hmem
  · rcases hc u hold with hlt | hm
    · left
      rw [a1]
      exact hlt
    · right
      have hm' : u ∈ s.priority_queue.pending_triangle_indices := by
        simpa using hm
      simpa using a3 u hm'
  · right
    simpa using hmem

/-- `legalize` preserves the capacity, the multiple-of-three triangle count
and the slot cover (by induction on the recursion fuel). -/
theorem legalize_inv : ∀ (fuel : Nat) (s : Triangulation) (r : Nat)
    (s' : Triangulation), s.legalize fuel r = .ok s' →
    3 ∣ s.triangles.length → slotsCovered s [] →
    s'.priority_queue.triangle_queue_indices.length =
      s.priority_queue.triangle_queue_indices.length ∧
    3 ∣ s'.triangles.length ∧ slotsCovered s' [] := by
  intro fuel
  induction fuel with
  | zero =>
    intro s r s' h h3 hc
    exact absurd h (by simp [Triangulation.legalize])
  | succ fuel ih =>
    intro s r s' h h3 hc
    simp only [Triangulation.legalize] at h
    rcases bind_eq_ok h with ⟨heOpt, _, h⟩
    cases heOpt with
    | none =>
      injection h with h
      subst h
      exact ⟨rfl, h3, hc⟩
    | some half_edge =>
      rcases bind_eq_ok h with ⟨v0, _, h⟩
      rcases bind_eq_ok h with ⟨vr, _, h⟩
      rcases bind_eq_ok h with ⟨vl, _, h⟩
      rcases bind_eq_ok h with ⟨v1, _, h⟩
      rcases bind_eq_ok h with ⟨w1, _, h⟩
      rcases bind_eq_ok h with ⟨w0, _, h⟩
      rcases bind_eq_ok h with ⟨wr, _, h⟩
      rcases bind_eq_ok h with ⟨wl, _, h⟩
      split at h
      · injection h with h
        subst h
        exact ⟨rfl, h3, hc⟩
      · rcases bind_eq_ok h with ⟨hel, _, h⟩
        rcases bind_eq_ok h with ⟨her, _, h⟩
        rcases bind_eq_ok h with ⟨ahel, _, h⟩
        rcases bind_eq_ok h with ⟨aher, _, h⟩
        rcases bind_eq_ok h with ⟨pq1, hr1, h⟩
        rcases bind_eq_ok h with ⟨pq2, hr2, h⟩
        rcases bind_eq_ok h with ⟨⟨nt0, sA⟩, hA, h⟩
        rcases bind_eq_ok h with ⟨⟨nt1, sB⟩, hB, h⟩
        rcases bind_eq_ok h with ⟨sC, hC, h⟩
        obtain ⟨r1a, r1b⟩ := remove_cover_state hr1 hc
        obtain ⟨r2a, r2b⟩ := remove_cover_state hr2 r1b
        obtain ⟨aA1, aA2, aA3⟩ := add_triangle_cover hA h3 r2b
        obtain ⟨aB1, aB2, aB3⟩ := add_triangle_cover hB aA2 aA3
        obtain ⟨iC1, iC2, iC3⟩ := ih sB _ sC hC aB2 aB3
        obtain ⟨iD1, iD2, iD3⟩ := ih sC _ s' h iC2 iC3
        refine ⟨?_, iD2, iD3⟩
        rw [iD1, iC1, aB1, aA1]
        show pq2.triangle_queue_indices.length = _
        rw [r2a]
        show pq1.triangle_queue_indices.length = _
        rw [r1a]

/-- `handle_collinear` preserves the capacity, the multiple-of-three
triangle count and the slot cover. -/
theorem handle_collinear_inv {s s' : Triangulation} {fuel nv cv : Nat}
    (h : s.handle_collinear fuel nv cv = .ok s')
    (h3 : 3 ∣ s.triangles.length) (hc : slotsCovered s []) :
    s'.priority_queue.triangle_queue_indices.length =
      s.priority_queue.triangle_queue_indices.length ∧
    3 ∣ s'.triangles.length ∧ slotsCovered s' [] := by
  simp only [Triangulation.handle_collinear] at h
  rcases bind_eq_ok h with ⟨cvp, _, h⟩
  rcases bind_eq_ok h with ⟨vap, _, h⟩
  rcases bind_eq_ok h with ⟨vbp, _, h⟩
  rcases bind_eq_ok h with ⟨hea, _, h⟩
  rcases bind_eq_ok h with ⟨heb, _, h⟩
  rcases bind_eq_ok h with ⟨collOpt, _, h⟩
  cases collOpt with
  | some che =>
    rcases bind_eq_ok h with ⟨v1, _, h⟩
    rcases bind_eq_ok h with ⟨hal, _, h⟩
    rcases bind_eq_ok h with ⟨har, _, h⟩
    rcases bind_eq_ok h with ⟨pq1, hr1, h⟩
    rcases bind_eq_ok h with ⟨⟨nt0, sA⟩, hA, h⟩
    rcases bind_eq_ok h with ⟨⟨nt1, sB⟩, hB, h⟩
    rcases bind_eq_ok h with ⟨⟨nt2, sC⟩, hC, h⟩
    rcases bind_eq_ok h with ⟨⟨nt3, sD⟩, hD, h⟩
    rcases bind_eq_ok h with ⟨sE, hE, h⟩
    rcases bind_eq_ok h with ⟨sF, hF, h⟩
    rcases bind_eq_ok h with ⟨sG, hG, h⟩
    obtain ⟨r1a, r1b⟩ := remove_cover_state hr1 hc
    obtain ⟨aA1, aA2, aA3⟩ := add_triangle_cover hA h3 r1b
    obtain ⟨aB1, aB2, aB3⟩ := add_triangle_cover hB aA2 aA3
    obtain ⟨aC1, aC2, aC3⟩ := add_triangle_cover hC aB2 aB3
    obtain ⟨aD1, aD2, aD3⟩ := add_triangle_cover hD aC2 aC3
    obtain ⟨e1, e2, e3⟩ := legalize_inv fuel sD _ sE hE aD2 aD3
    obtain ⟨f1, f2, f3⟩ := legalize_inv fuel sE _ sF hF e2 e3
    obtain ⟨g1, g2, g3⟩ := legalize_inv fuel sF _ sG hG f2 f3
    obtain ⟨k1, k2, k3⟩ := legalize_inv fuel sG _ s' h g2 g3
    refine ⟨?_, k2, k3⟩
    rw [k1, g1, f1, e1, aD1, aC1, aB1, aA1]
    show pq1.triangle_queue_indices.length = _
    rw [r1a]
  | none =>
    rcases bind_eq_ok h with ⟨⟨nt0, sA⟩, hA, h⟩
    rcases bind_eq_ok h with ⟨⟨nt1, sB⟩, hB, h⟩
    rcases bind_eq_ok h with ⟨sC, hC, h⟩
    obtain ⟨aA1, aA2, aA3⟩ := add_triangle_cover hA h3 hc
    obtain ⟨aB1, aB2, aB3⟩ := add_triangle_cover hB aA2 aA3
    obtain ⟨e1, e2, e3⟩ := legalize_inv fuel sB _ sC hC aB2 aB3
    obtain ⟨f1, f2, f3⟩ := legalize_inv fuel sC _ s' h e2 e3
    exact ⟨by rw [f1, e1, aB1, aA1], f2, f3⟩

set_option maxHeartbeats 2000000 in
/-- The panic-only part of `step` preserves the capacity, the
multiple-of-three triangle count and the slot cover. -/
theorem stepBody_inv {s s' : Triangulation} {fuel qt : Nat}
    (h : s.stepBody fuel qt = .ok s')
    (h3 : 3 ∣ s.triangles.length) (hc : slotsCovered s []) :
    s'.priority_queue.triangle_queue_indices.length =
      s.priority_queue.triangle_queue_indices.length ∧
    3 ∣ s'.triangles.length ∧ slotsCovered s' [] := by
  simp only [Triangulation.stepBody, Triangulation.add_point] at h
  rcases bind_eq_ok h with ⟨vap, _, h⟩
  rcases bind_eq_ok h with ⟨vbp, _, h⟩
  rcases bind_eq_ok h with ⟨vcp, _, h⟩
  rcases bind_eq_ok h with ⟨pa, _, h⟩
  rcases bind_eq_ok h with ⟨pb, _, h⟩
  rcases bind_eq_ok h with ⟨pc, _, h⟩
  rcases bind_eq_ok h with ⟨cp, _, h⟩
  split at h
  · obtain ⟨x1, x2, x3⟩ := handle_collinear_inv h h3 hc
    refine ⟨?_, x2, ?_⟩
    · exact x1
    · exact x3
  · split at h
    · obtain ⟨x1, x2, x3⟩ := handle_collinear_inv h h3 hc
      refine ⟨?_, x2, ?_⟩
      · exact x1
      · exact x3
    · split at h
      · obtain ⟨x1, x2, x3⟩ := handle_collinear_inv h h3 hc
        refine ⟨?_, x2, ?_⟩
        · exact x1
        · exact x3
      · rcases bind_eq_ok h with ⟨ha', _, h⟩
        rcases bind_eq_ok h with ⟨hb', _, h⟩
        rcases bind_eq_ok h with ⟨hc', _, h⟩
        rcases bind_eq_ok h with ⟨⟨nt0, sA⟩, hA, h⟩
        rcases bind_eq_ok h with ⟨⟨nt1, sB⟩, hB, h⟩
        rcases bind_eq_ok h with ⟨⟨nt2, sC⟩, hC2, h⟩
        rcases bind_eq_ok h with ⟨sD, hD, h⟩
        rcases bind_eq_ok h with ⟨sE, hE, h⟩
        obtain ⟨aA1, aA2, aA3⟩ := add_triangle_cover hA h3 hc
        obtain ⟨aB1, aB2, aB3⟩ := add_triangle_cover hB aA2 aA3
        obtain ⟨aC1, aC2, aC3⟩ := add_triangle_cover hC2 aB2 aB3
        obtain ⟨e1, e2, e3⟩ := legalize_inv fuel sC _ sD hD aC2 aC3
        obtain ⟨f1, f2, f3⟩ := legalize_inv fuel sD _ sE hE e2 e3
        obtain ⟨g1, g2, g3⟩ := legalize_inv fuel sE _ s' h f2 f3
        refine ⟨?_, g2, g3⟩
        rw [g1, f1, e1, aC1, aB1, aA1]

/-- `step` preserves the capacity, the multiple-of-three triangle count and
the slot cover. -/
theorem step_inv {s s' : Triangulation} {fuel : Nat}
    (h : s.step fuel = .ok s')
    (h3 : 3 ∣ s.triangles.length) (hc : slotsCovered s []) :
    s'.priority_queue.triangle_queue_indices.length =
      s.priority_queue.triangle_queue_indices.length ∧
    3 ∣ s'.triangles.length ∧ slotsCovered s' [] := by
  simp only [Triangulation.step] at h
  rcases bind_eq_ok h with ⟨⟨popped, pq⟩, hpop, h⟩
  rw [liftP_eq_ok] at hpop
  cases popped with
  | none => exact absurd h (by simp)
  | some qt =>
    rw [liftP_eq_ok] at h
    obtain ⟨o1, o2⟩ := pop_pres hpop
    have hc1 : slotsCovered { s with priority_queue := pq } [] := by
      intro u hu
      rcases hc u hu with hlt | hm
      · left
        show u < pq.triangle_queue_indices.length
        rw [o1]
        exact hlt
      · right
        show u ∈ [] ++ pq.pending_triangle_indices
        rw [o2]
        exact hm
    obtain ⟨b1, b2, b3⟩ := stepBody_inv h h3 hc1
    refine ⟨?_, b2, b3⟩
    rw [b1]
    show pq.triangle_queue_indices.length = _
    rw [o1]

/-- `refine` (one step, then flush) preserves the capacity, the
multiple-of-three triangle count and the slot cover, and empties the
pending list. -/
theorem refine_inv {s s' : Triangulation} {fuel : Nat}
    (h : s.refine fuel = .ok s')
    (h3 : 3 ∣ s.triangles.length) (hc : slotsCovered s []) :
    s'.priority_queue.triangle_queue_indices.length =
      s.priority_queue.triangle_queue_indices.length ∧
    3 ∣ s'.triangles.length ∧
    s'.priority_queue.pending_triangle_indices = [] ∧
    slotsCovered s' [] := by
  simp only [Triangulation.refine] at h
  rcases bind_eq_ok h with ⟨s1, h1, h⟩
  rw [liftP_eq_ok] at h
  obtain ⟨b1, b2, b3⟩ := step_inv h1 h3 hc
  obtain ⟨f1, f2, f3, f4⟩ := flush_inv h b3
  refine ⟨?_, ?_, f3, f4⟩
  · rw [f2, b1]
  · rw [f1]
    exact b2

/-- The refinement loop preserves the capacity, the multiple-of-three
triangle count, the slot cover and the empty pending list. -/
theorem runLoop_inv : ∀ (fuel : Nat) (s : Triangulation) (me : ℚ)
    (s' : Triangulation), s.runLoop me fuel = .ok s' →
    3 ∣ s.triangles.length → slotsCovered s [] →
    s.priority_queue.pending_triangle_indices = [] →
    s'.priority_queue.triangle_queue_indices.length =
      s.priority_queue.triangle_queue_indices.length ∧
    3 ∣ s'.triangles.length ∧
    s'.priority_queue.pending_triangle_indices = [] ∧
    slotsCovered s' [] := by
  intro fuel
  induction fuel with
  | zero =>
    intro s me s' h h3 hc hp
    exact absurd h (by simp [Triangulation.runLoop])
  | succ fuel ih =>
    intro s me s' h h3 hc hp
    simp only [Triangulation.runLoop] at h
    split at h
    · exact absurd h (by simp)
    · split at h
      · rcases bind_eq_ok h with ⟨s1, h1, h⟩
        obtain ⟨r1, r2, r3, r4⟩ := refine_inv h1 h3 hc
        obtain ⟨l1, l2, l3, l4⟩ := ih s1 me s' h r2 r4 r3
        exact ⟨by rw [l1, r1], l2, l3, l4⟩
      · injection h with h
        subst h
        exact ⟨rfl, h3, hp, hc⟩

/-- A successful `runState` ends with the reverse index still at its
initial capacity `⌊w·h/4⌋`, an empty pending list, and a triangle array of
at most `3·⌊w·h/4⌋` slots (every slot index stayed within capacity). -/
theorem runState_capacity {hd : List Height} {w hh : Nat} {me : ℚ}
    {fuel : Nat} {s' : Triangulation}
    (h : Triangulation.runState hd w hh me fuel = .ok s') :
    s'.priority_queue.triangle_queue_indices.length = w * hh / 4 ∧
    s'.priority_queue.pending_triangle_indices = [] ∧
    3 ∣ s'.triangles.length ∧
    s'.triangles.length ≤ 3 * (w * hh / 4) := by
  simp only [Triangulation.runState, Triangulation.new,
    Triangulation.add_point] at h
  rcases bind_eq_ok h with ⟨⟨t0, sA⟩, hA, h⟩
  rw [liftP_eq_ok] at hA
  rcases bind_eq_ok h with ⟨⟨t1, sB⟩, hB, h⟩
  rw [liftP_eq_ok] at hB
  rcases bind_eq_ok h with ⟨sC, hC, h⟩
  rw [liftP_eq_ok] at hC
  obtain ⟨aA1, aA2, aA3⟩ := add_triangle_cover hA ⟨0, rfl⟩
    (fun u hu => absurd hu (Nat.not_lt_zero _))
  obtain ⟨aB1, aB2, aB3⟩ := add_triangle_cover hB aA2 aA3
  obtain ⟨f1, f2, f3, f4⟩ := flush_inv hC aB3
  have hf3 : 3 ∣ sC.triangles.length := by
    rw [f1]
    exact aB2
  obtain ⟨l1, l2, l3, l4⟩ := runLoop_inv fuel sC me s' h hf3 f4 f3
  have hcap : s'.priority_queue.triangle_queue_indices.length =
      w * hh / 4 := by
    rw [l1, f2, aB1, aA1]
    show (PriorityQueue.new (w * hh / 4)).triangle_queue_indices.length = _
    simp [PriorityQueue.new]
  have hbound : ∀ u : Nat, 3 * u < s'.triangles.length →
      u < s'.priority_queue.triangle_queue_indices.length := by
    intro u hu
    rcases l4 u hu with hlt | hm
    · exact hlt
    · rw [l3] at hm
      simp at hm
  obtain ⟨m, hm⟩ := l2
  have hle : s'.triangles.length ≤
      3 * s'.priority_queue.triangle_queue_indices.length := by
    rcases Nat.eq_zero_or_pos m with hz | hz
    · omega
    · have h1 := hbound (m - 1) (by omega)
      omega
  rw [hcap] at hle
  exact ⟨hcap, l3, ⟨m, hm⟩, hle⟩

/-- A panic tag that is not an out-of-bounds access of `push` or `remove`
on the reverse index: the generic checked-index tag, the fuel guard of the
embedding, or the `len() - 1` underflow. -/
def benign (p : Panic) : Prop :=
  p = .idxOOB ∨ p = .fuelOut ∨ p = .heapUnderflow

/-- Classification of a panic against a capacity `c`: either the panic is
benign, or it is the dedicated out-of-bounds access of `push` or of
`remove` at a triangle index that is at least `c`. -/
def oobBeyond (c : Nat) (p : Panic) : Prop :=
  benign p ∨
    ∃ u, (p = .pushIndexOOB u ∨ p = .removeIndexOOB u) ∧ c ≤ u

/-- Generic checked-index panics are benign. -/
theorem oob_of_idx {c : Nat} {p : Panic} (h : p = .idxOOB) : oobBeyond c p :=
  Or.inl (Or.inl h)

/-- Fuel exhaustion of the embedding is benign. -/
theorem oob_of_fuel {c : Nat} {p : Panic} (h : p = .fuelOut) :
    oobBeyond c p :=
  Or.inl (Or.inr (Or.inl h))

/-- The `pop` length underflow is benign. -/
theorem oob_of_under {c : Nat} {p : Panic} (h : p = .heapUnderflow) :
    oobBeyond c p :=
  Or.inl (Or.inr (Or.inr h))

/-- Transport of the classification along an equality of capacities. -/
theorem oobBeyond_trans {c1 c2 : Nat} {p : Panic} (e : c1 = c2)
    (h : oobBeyond c1 p) : oobBeyond c2 p :=
  e ▸ h

/-- A failing twin write-back carries the generic tag. -/
theorem setTwin_error_tag {he : List (Option Nat)} {tw : Option Nat}
    {v : Nat} {p : Panic} (h : setTwin he tw v = .error p) : p = .idxOOB := by
  cases tw with
  | some k =>
    simp only [setTwin] at h
    exact (setE_eq_error h).1
  | none => exact absurd h (by simp [setTwin])

/-- A failing `add_triangle` carries the generic tag (all its writes are
plain checked indices). -/
theorem add_triangle_error_tag {s : Triangulation}
    {tri : Nat × Nat × Nat} {hab hbc hca : Option Nat}
    {strat : AddTriangleStrategy} {p : Panic}
    (h : s.add_triangle tri hab hbc hca strat = .error p) : p = .idxOOB := by
  cases strat with
  | update index =>
    simp only [Triangulation.add_triangle] at h
    rcases bind_eq_error h with h | ⟨tr1, _, h⟩
    · exact (setE_eq_error h).1
    rcases bind_eq_error h with h | ⟨tr2, _, h⟩
    · exact (setE_eq_error h).1
    rcases bind_eq_error h with h | ⟨tr3, _, h⟩
    · exact (setE_eq_error h).1
    rcases bind_eq_error h with h | ⟨he1, _, h⟩
    · exact (setE_eq_error h).1
    rcases bind_eq_error h with h | ⟨he2, _, h⟩
    · exact (setE_eq_error h).1
    rcases bind_eq_error h with h | ⟨he3, _, h⟩
    · exact (setE_eq_error h).1
    rcases bind_eq_error h with h | ⟨pr, _, h⟩
    · exact absurd h (by simp)
    rcases bind_eq_error h with h | ⟨ha1, _, h⟩
    · exact setTwin_error_tag h
    rcases bind_eq_error h with h | ⟨ha2, _, h⟩
    · exact setTwin_error_tag h
    rcases bind_eq_error h with h | ⟨ha3, _, h⟩
    · exact setTwin_error_tag h
    exact absurd h (by simp)
  | create =>
    simp only [Triangulation.add_triangle] at h
    rcases bind_eq_error h with h | ⟨pr, _, h⟩
    · exact absurd h (by simp)
    rcases bind_eq_error h with h | ⟨ha1, _, h⟩
    · exact setTwin_error_tag h
    rcases bind_eq_error h with h | ⟨ha2, _, h⟩
    · exact setTwin_error_tag h
    rcases bind_eq_error h with h | ⟨ha3, _, h⟩
    · exact setTwin_error_tag h
    exact absurd h (by simp)

/-- A failing `push` is benign or its own out-of-bounds access at the
pushed index, beyond the capacity. -/
theorem push_error_oob {q : PriorityQueue} {t : Nat} {e : ℚ} {p : Panic}
    (h : q.push t e = .error p) :
    benign p ∨
      (p = .pushIndexOOB t ∧ q.triangle_queue_indices.length ≤ t) := by
  rw [PriorityQueue.push] at h
  rcases bind_eq_error h with h | ⟨r, _, h⟩
  · obtain ⟨h1, h2⟩ := setE_eq_error h
    exact Or.inr ⟨h1, h2⟩
  · rw [PriorityQueue.up] at h
    rcases upLoop_error_tag _ _ _ _ h with hb | hb
    · exact Or.inl (Or.inl hb)
    · exact Or.inl (Or.inr (Or.inl hb))

/-- A failing `remove` is benign or its own out-of-bounds access at the
requested index, beyond the capacity. -/
theorem remove_error_oob {q : PriorityQueue} {t : Nat} {p : Panic}
    (h : q.remove t = .error p) :
    benign p ∨
      (p = .removeIndexOOB t ∧ q.triangle_queue_indices.length ≤ t) := by
  rw [PriorityQueue.remove] at h
  rcases bind_eq_error h with h | ⟨rt, hrt, h⟩
  · obtain ⟨h1, h2⟩ := getE_eq_error h
    exact Or.inr ⟨h1, h2⟩
  cases rt with
  | none => exact absurd h (by simp)
  | some index =>
    simp only at h
    split at h
    · injection h with h
      exact Or.inl (Or.inr (Or.inr h.symm))
    · have tailE : ∀ (y : PriorityQueue),
          (do let d ← y.popBack
              (Except.ok d.2 : Except Panic PriorityQueue)) = .error p →
          p = .idxOOB := by
        intro y hh
        rcases bind_eq_error hh with hh | ⟨d, _, hh⟩
        · exact popBack_error_tag hh
        · exact absurd hh (by simp)
      split at h
      · rcases bind_eq_error h with h | ⟨q1, hq1, h⟩
        · exact Or.inl (Or.inl (swap_error_tag h))
        rcases bind_eq_error h with h | ⟨d, hd, h⟩
        · simp only [PriorityQueue.down] at h
          rcases bind_eq_error h with h | ⟨x, _, h⟩
          · rcases downLoop_error_tag _ _ _ _ _ h with hb | hb
            · exact Or.inl (Or.inl hb)
            · exact Or.inl (Or.inr (Or.inl hb))
          · exact absurd h (by simp)
        split at h
        · rw [pure_bind] at h
          exact Or.inl (Or.inl (tailE _ h))
        · rcases bind_eq_error h with h | ⟨y, _, h⟩
          · rw [PriorityQueue.up] at h
            rcases upLoop_error_tag _ _ _ _ h with hb | hb
            · exact Or.inl (Or.inl hb)
            · exact Or.inl (Or.inr (Or.inl hb))
          · exact Or.inl (Or.inl (tailE _ h))
      · rw [pure_bind] at h
        exact Or.inl (Or.inl (tailE _ h))

/-- A failing `pop` is always benign. -/
theorem pop_error_tag {q : PriorityQueue} {p : Panic}
    (h : q.pop = .error p) : benign p := by
  simp only [PriorityQueue.pop] at h
  split at h
  · injection h with h
    exact Or.inr (Or.inr h.symm)
  · rcases bind_eq_error h with h | ⟨q1, hq1, h⟩
    · exact Or.inl (swap_error_tag h)
    rcases bind_eq_error h with h | ⟨⟨qd, mv⟩, hd, h⟩
    · simp only [PriorityQueue.down] at h
      rcases bind_eq_error h with h | ⟨x, _, h⟩
      · rcases downLoop_error_tag _ _ _ _ _ h with hb | hb
        · exact Or.inl hb
        · exact Or.inr (Or.inl hb)
      · exact absurd h (by simp)
    · exact Or.inl (popBack_error_tag h)

/-- `liftP` surfaces a panic unchanged. -/
theorem liftP_panic_inv {α : Type} {x : Except Panic α} {p : Panic}
    (h : liftP x = .error (.panic p)) : x = .error p := by
  cases x with
  | ok a => exact absurd h (by simp [liftP])
  | error q =>
    simp only [liftP] at h
    injection h with h
    injection h with h
    rw [h]

/-- A failing column scan carries the generic tag or the fuel guard. -/
theorem scanX_error_tag : ∀ (fuel : Nat) (hdt : List Height) (width : Nat)
    (y x maxX : Nat) (wbc wca wab cb ac ba : Int) (na nb nc : ℚ)
    (wi : Bool) (be : ℚ) (bp : Point) (p : Panic),
    scanX hdt width fuel y x maxX wbc wca wab cb ac ba na nb nc wi be bp =
      .error p → p = .idxOOB ∨ p = .fuelOut := by
  intro fuel
  induction fuel with
  | zero =>
    intro hdt width y x maxX wbc wca wab cb ac ba na nb nc wi be bp p h
    simp only [scanX] at h
    injection h with h
    exact Or.inr h.symm
  | succ fuel ih =>
    intro hdt width y x maxX wbc wca wab cb ac ba na nb nc wi be bp p h
    simp only [scanX] at h
    split at h
    · exact absurd h (by simp)
    split at h
    · rcases bind_eq_error h with h | ⟨hxy, _, h⟩
      · exact Or.inl (getE_eq_error h).1
      · split at h <;>
          exact ih _ _ _ _ _ _ _ _ _ _ _ _ _ _ _ _ _ _ h
    split at h
    · exact absurd h (by simp)
    · exact ih _ _ _ _ _ _ _ _ _ _ _ _ _ _ _ _ _ _ h

/-- A failing row scan carries the generic tag or the fuel guard. -/
theorem scanY_error_tag : ∀ (fuel : Nat) (hdt : List Height) (width : Nat)
    (y maxY minX maxX : Nat) (wbc wca wab cb ac ba bcx cax abx : Int)
    (na nb nc : ℚ) (be : ℚ) (bp : Point) (p : Panic),
    scanY hdt width fuel y maxY minX maxX wbc wca wab cb ac ba bcx cax abx
      na nb nc be bp = .error p → p = .idxOOB ∨ p = .fuelOut := by
  intro fuel
  induction fuel with
  | zero =>
    intro hdt width y maxY minX maxX wbc wca wab cb ac ba bcx cax abx na
      nb nc be bp p h
    simp only [scanY] at h
    injection h with h
    exact Or.inr h.symm
  | succ fuel ih =>
    intro hdt width y maxY minX maxX wbc wca wab cb ac ba bcx cax abx na
      nb nc be bp p h
    simp only [scanY] at h
    split at h
    · exact absurd h (by simp)
    · rcases bind_eq_error h with h | ⟨⟨be1, bp1⟩, _, h⟩
      · exact scanX_error_tag _ _ _ _ _ _ _ _ _ _ _ _ _ _ _ _ _ _ _ h
      · exact ih _ _ _ _ _ _ _ _ _ _ _ _ _ _ _ _ _ _ _ _ _ h

/-- A failing `find_candidate` is benign or the out-of-bounds access of
its `push`, beyond the capacity. -/
theorem find_candidate_error_oob {s : Triangulation} {t : Nat} {p : Panic}
    (h : s.find_candidate t = .error p) :
    oobBeyond s.priority_queue.triangle_queue_indices.length p := by
  simp only [Triangulation.find_candidate] at h
  rcases bind_eq_error h with h | ⟨va, _, h⟩
  · exact oob_of_idx (getE_eq_error h).1
  rcases bind_eq_error h with h | ⟨vb, _, h⟩
  · exact oob_of_idx (getE_eq_error h).1
  rcases bind_eq_error h with h | ⟨vc, _, h⟩
  · exact oob_of_idx (getE_eq_error h).1
  rcases bind_eq_error h with h | ⟨pa, _, h⟩
  · exact oob_of_idx (getE_eq_error h).1
  rcases bind_eq_error h with h | ⟨pb, _, h⟩
  · exact oob_of_idx (getE_eq_error h).1
  rcases bind_eq_error h with h | ⟨pc, _, h⟩
  · exact oob_of_idx (getE_eq_error h).1
  rcases bind_eq_error h with h | ⟨za, _, h⟩
  · rw [Triangulation.height_at] at h
    exact oob_of_idx (getE_eq_error h).1
  rcases bind_eq_error h with h | ⟨zb, _, h⟩
  · rw [Triangulation.height_at] at h
    exact oob_of_idx (getE_eq_error h).1
  rcases bind_eq_error h with h | ⟨zc, _, h⟩
  · rw [Triangulation.height_at] at h
    exact oob_of_idx (getE_eq_error h).1
  rcases bind_eq_error h with h | ⟨⟨merr, mpt⟩, _, h⟩
  · rcases scanY_error_tag _ _ _ _ _ _ _ _ _ _ _ _ _ _ _ _ _ _ _ _ _ _
        h with hb | hb
    · exact oob_of_idx hb
    · exact oob_of_fuel hb
  rcases bind_eq_error h with h | ⟨cps, _, h⟩
  · exact oob_of_idx (setE_eq_error h).1
  rcases bind_eq_error h with h | ⟨pq, hpq, h⟩
  · rcases push_error_oob h with hb | ⟨h1, h2⟩
    · exact Or.inl hb
    · exact Or.inr ⟨t, Or.inl h1, h2⟩
  exact absurd h (by simp)

/-- A failing flush of a drained pending list is benign or an
out-of-bounds `push` beyond the capacity. -/
theorem flushList_error_oob : ∀ (pending_list : List Nat)
    (s : Triangulation) (p : Panic),
    s.flushList pending_list = .error p →
    oobBeyond s.priority_queue.triangle_queue_indices.length p := by
  intro pending_list
  induction pending_list with
  | nil =>
    intro s p h
    exact absurd h (by simp [Triangulation.flushList])
  | cons t rest ih =>
    intro s p h
    simp only [Triangulation.flushList] at h
    rcases bind_eq_error h with h | ⟨s1, h1, h⟩
    · exact find_candidate_error_oob h
    · obtain ⟨e1, e2, e3, e4⟩ := find_candidate_inv h1
      have hx := ih s1 p h
      rw [e2] at hx
      exact hx

/-- A failing `flush` is benign or an out-of-bounds `push` beyond the
capacity. -/
theorem flush_error_oob {s : Triangulation} {p : Panic}
    (h : s.flush = .error p) :
    oobBeyond s.priority_queue.triangle_queue_indices.length p := by
  simp only [Triangulation.flush, PriorityQueue.consume_pending_triangles]
    at h
  have hx := flushList_error_oob _ _ _ h
  exact hx

/-- A failing `legalize` is benign or an out-of-bounds `push`/`remove`
access beyond the capacity (by induction on the recursion fuel). -/
theorem legalize_error_oob : ∀ (fuel : Nat) (s : Triangulation) (r : Nat)
    (p : Panic), s.legalize fuel r = .error p →
    3 ∣ s.triangles.length → slotsCovered s [] →
    oobBeyond s.priority_queue.triangle_queue_indices.length p := by
  intro fuel
  induction fuel with
  | zero =>
    intro s r p h h3 hc
    simp only [Triangulation.legalize] at h
    injection h with h
    exact oob_of_fuel h.symm
  | succ fuel ih =>
    intro s r p h h3 hc
    simp only [Triangulation.legalize] at h
    rcases bind_eq_error h with h | ⟨heOpt, _, h⟩
    · exact oob_of_idx (getE_eq_error h).1
    cases heOpt with
    | none => exact absurd h (by simp)
    | some half_edge =>
      rcases bind_eq_error h with h | ⟨v0, _, h⟩
      · exact oob_of_idx (getE_eq_error h).1
      rcases bind_eq_error h with h | ⟨vr, _, h⟩
      · exact oob_of_idx (getE_eq_error h).1
      rcases bind_eq_error h with h | ⟨vl, _, h⟩
      · exact oob_of_idx (getE_eq_error h).1
      rcases bind_eq_error h with h | ⟨v1, _, h⟩
      · exact oob_of_idx (getE_eq_error h).1
      rcases bind_eq_error h with h | ⟨w1, _, h⟩
      · exact oob_of_idx (getE_eq_error h).1
      rcases bind_eq_error h with h | ⟨w0, _, h⟩
      · exact oob_of_idx (getE_eq_error h).1
      rcases bind_eq_error h with h | ⟨wr, _, h⟩
      · exact oob_of_idx (getE_eq_error h).1
      rcases bind_eq_error h with h | ⟨wl, _, h⟩
      · exact oob_of_idx (getE_eq_error h).1
      split at h
      · exact absurd h (by simp)
      · rcases bind_eq_error h with h | ⟨hel, _, h⟩
        · exact oob_of_idx (getE_eq_error h).1
        rcases bind_eq_error h with h | ⟨her, _, h⟩
        · exact oob_of_idx (getE_eq_error h).1
        rcases bind_eq_error h with h | ⟨ahel, _, h⟩
        · exact oob_of_idx (getE_eq_error h).1
        rcases bind_eq_error h with h | ⟨aher, _, h⟩
        · exact oob_of_idx (getE_eq_error h).1
        rcases bind_eq_error h with h | ⟨pq1, hr1, h⟩
        · rcases remove_error_oob h with hb | ⟨h1, h2⟩
          · exact Or.inl hb
          · exact Or.inr ⟨_, Or.inr h1, h2⟩
        rcases bind_eq_error h with h | ⟨pq2, hr2, h⟩
        · obtain ⟨r1a, r1b⟩ := remove_cover_state hr1 hc
          rcases remove_error_oob h with hb | ⟨h1, h2⟩
          · exact Or.inl hb
          · refine Or.inr ⟨_, Or.inr h1, ?_⟩
            rw [← r1a]
            exact h2
        obtain ⟨r1a, r1b⟩ := remove_cover_state hr1 hc
        obtain ⟨r2a, r2b⟩ := remove_cover_state hr2 r1b
        rcases bind_eq_error h with h | ⟨⟨nt0, sA⟩, hA, h⟩
        · exact oob_of_idx (add_triangle_error_tag h)
        obtain ⟨aA1, aA2, aA3⟩ := add_triangle_cover hA h3 r2b
        rcases bind_eq_error h with h | ⟨⟨nt1, sB⟩, hB, h⟩
        · exact oob_of_idx (add_triangle_error_tag h)
        obtain ⟨aB1, aB2, aB3⟩ := add_triangle_cover hB aA2 aA3
        rcases bind_eq_error h with h | ⟨sC, hC, h⟩
        · have hx := ih sB _ p h aB2 aB3
          refine oobBeyond_trans ?_ hx
          rw [aB1, aA1]
          show pq2.triangle_queue_indices.length = _
          rw [r2a]
          show pq1.triangle_queue_indices.length = _
          rw [r1a]
        obtain ⟨iC1, iC2, iC3⟩ := legalize_inv fuel sB _ sC hC aB2 aB3
        have hx := ih sC _ p h iC2 iC3
        refine oobBeyond_trans ?_ hx
        rw [iC1, aB1, aA1]
        show pq2.triangle_queue_indices.length = _
        rw [r2a]
        show pq1.triangle_queue_indices.length = _
        rw [r1a]

/-- A failing `handle_collinear` is benign or an out-of-bounds
`push`/`remove` access beyond the capacity. -/
theorem handle_collinear_error_oob {s : Triangulation} {fuel nv cv : Nat}
    {p : Panic} (h : s.handle_collinear fuel nv cv = .error p)
    (h3 : 3 ∣ s.triangles.length) (hc : slotsCovered s []) :
    oobBeyond s.priority_queue.triangle_queue_indices.length p := by
  simp only [Triangulation.handle_collinear] at h
  rcases bind_eq_error h with h | ⟨cvp, _, h⟩
  · exact oob_of_idx (getE_eq_error h).1
  rcases bind_eq_error h with h | ⟨vap, _, h⟩
  · exact oob_of_idx (getE_eq_error h).1
  rcases bind_eq_error h with h | ⟨vbp, _, h⟩
  · exact oob_of_idx (getE_eq_error h).1
  rcases bind_eq_error h with h | ⟨hea, _, h⟩
  · exact oob_of_idx (getE_eq_error h).1
  rcases bind_eq_error h with h | ⟨heb, _, h⟩
  · exact oob_of_idx (getE_eq_error h).1
  rcases bind_eq_error h with h | ⟨collOpt, _, h⟩
  · exact oob_of_idx (getE_eq_error h).1
  cases collOpt with
  | some che =>
    rcases bind_eq_error h with h | ⟨v1, _, h⟩
    · exact oob_of_idx (getE_eq_error h).1
    rcases bind_eq_error h with h | ⟨hal, _, h⟩
    · exact oob_of_idx (getE_eq_error h).1
    rcases bind_eq_error h with h | ⟨har, _, h⟩
    · exact oob_of_idx (getE_eq_error h).1
    rcases bind_eq_error h with h | ⟨pq1, hr1, h⟩
    · rcases remove_error_oob h with hb | ⟨h1, h2⟩
      · exact Or.inl hb
      · exact Or.inr ⟨_, Or.inr h1, h2⟩
    obtain ⟨r1a, r1b⟩ := remove_cover_state hr1 hc
    rcases bind_eq_error h with h | ⟨⟨nt0, sA⟩, hA, h⟩
    · exact oob_of_idx (add_triangle_error_tag h)
    obtain ⟨aA1, aA2, aA3⟩ := add_triangle_cover hA h3 r1b
    rcases bind_eq_error h with h | ⟨⟨nt1, sB⟩, hB, h⟩
    · exact oob_of_idx (add_triangle_error_tag h)
    obtain ⟨aB1, aB2, aB3⟩ := add_triangle_cover hB aA2 aA3
    rcases bind_eq_error h with h | ⟨⟨nt2, sC⟩, hC, h⟩
    · exact oob_of_idx (add_triangle_error_tag h)
    obtain ⟨aC1, aC2, aC3⟩ := add_triangle_cover hC aB2 aB3
    rcases bind_eq_error h with h | ⟨⟨nt3, sD⟩, hD, h⟩
    · exact oob_of_idx (add_triangle_error_tag h)
    obtain ⟨aD1, aD2, aD3⟩ := add_triangle_cover hD aC2 aC3
    rcases bind_eq_error h with h | ⟨sE, hE, h⟩
    · have hx := legalize_error_oob fuel sD _ p h aD2 aD3
      refine oobBeyond_trans ?_ hx
      rw [aD1, aC1, aB1, aA1]
      show pq1.triangle_queue_indices.length = _
      rw [r1a]
    obtain ⟨e1, e2, e3⟩ := legalize_inv fuel sD _ sE hE aD2 aD3
    rcases bind_eq_error h with h | ⟨sF, hF, h⟩
    · have hx := legalize_error_oob fuel sE _ p h e2 e3
      refine oobBeyond_trans ?_ hx
      rw [e1, aD1, aC1, aB1, aA1]
      show pq1.triangle_queue_indices.length = _
      rw [r1a]
    obtain ⟨f1, f2, f3⟩ := legalize_inv fuel sE _ sF hF e2 e3
    rcases bind_eq_error h with h | ⟨sG, hG, h⟩
    · have hx := legalize_error_oob fuel sF _ p h f2 f3
      refine oobBeyond_trans ?_ hx
      rw [f1, e1, aD1, aC1, aB1, aA1]
      show pq1.triangle_queue_indices.length = _
      rw [r1a]
    obtain ⟨g1, g2, g3⟩ := legalize_inv fuel sF _ sG hG f2 f3
    have hx := legalize_error_oob fuel sG _ p h g2 g3
    refine oobBeyond_trans ?_ hx
    rw [g1, f1, e1, aD1, aC1, aB1, aA1]
    show pq1.triangle_queue_indices.length = _
    rw [r1a]
  | none =>
    rcases bind_eq_error h with h | ⟨⟨nt0, sA⟩, hA, h⟩
    · exact oob_of_idx (add_triangle_error_tag h)
    obtain ⟨aA1, aA2, aA3⟩ := add_triangle_cover hA h3 hc
    rcases bind_eq_error h with h | ⟨⟨nt1, sB⟩, hB, h⟩
    · exact oob_of_idx (add_triangle_error_tag h)
    obtain ⟨aB1, aB2, aB3⟩ := add_triangle_cover hB aA2 aA3
    rcases bind_eq_error h with h | ⟨sC, hC, h⟩
    · have hx := legalize_error_oob fuel sB _ p h aB2 aB3
      refine oobBeyond_trans ?_ hx
      rw [aB1, aA1]
    obtain ⟨e1, e2, e3⟩ := legalize_inv fuel sB _ sC hC aB2 aB3
    have hx := legalize_error_oob fuel sC _ p h e2 e3
    refine oobBeyond_trans ?_ hx
    rw [e1, aB1, aA1]

set_option maxHeartbeats 2000000 in
/-- A failing `stepBody` is benign or an out-of-bounds `push`/`remove`
access beyond the capacity. -/
theorem stepBody_error_oob {s : Triangulation} {fuel qt : Nat} {p : Panic}
    (h : s.stepBody fuel qt = .error p)
    (h3 : 3 ∣ s.triangles.length) (hc : slotsCovered s []) :
    oobBeyond s.priority_queue.triangle_queue_indices.length p := by
  simp only [Triangulation.stepBody, Triangulation.add_point] at h
  rcases bind_eq_error h with h | ⟨vap, _, h⟩
  · exact oob_of_idx (getE_eq_error h).1
  rcases bind_eq_error h with h | ⟨vbp, _, h⟩
  · exact oob_of_idx (getE_eq_error h).1
  rcases bind_eq_error h with h | ⟨vcp, _, h⟩
  · exact oob_of_idx (getE_eq_error h).1
  rcases bind_eq_error h with h | ⟨pa, _, h⟩
  · exact oob_of_idx (getE_eq_error h).1
  rcases bind_eq_error h with h | ⟨pb, _, h⟩
  · exact oob_of_idx (getE_eq_error h).1
  rcases bind_eq_error h with h | ⟨pc, _, h⟩
  · exact oob_of_idx (getE_eq_error h).1
  rcases bind_eq_error h with h | ⟨cp, _, h⟩
  · exact oob_of_idx (getE_eq_error h).1
  split at h
  · have hx := handle_collinear_error_oob h h3 hc
    exact hx
  · split at h
    · have hx := handle_collinear_error_oob h h3 hc
      exact hx
    · split at h
      · have hx := handle_collinear_error_oob h h3 hc
        exact hx
      · rcases bind_eq_error h with h | ⟨ha', _, h⟩
        · exact oob_of_idx (getE_eq_error h).1
        rcases bind_eq_error h with h | ⟨hb', _, h⟩
        · exact oob_of_idx (getE_eq_error h).1
        rcases bind_eq_error h with h | ⟨hc', _, h⟩
        · exact oob_of_idx (getE_eq_error h).1
        rcases bind_eq_error h with h | ⟨⟨nt0, sA⟩, hA, h⟩
        · exact oob_of_idx (add_triangle_error_tag h)
        obtain ⟨aA1, aA2, aA3⟩ := add_triangle_cover hA h3 hc
        rcases bind_eq_error h with h | ⟨⟨nt1, sB⟩, hB, h⟩
        · exact oob_of_idx (add_triangle_error_tag h)
        obtain ⟨aB1, aB2, aB3⟩ := add_triangle_cover hB aA2 aA3
        rcases bind_eq_error h with h | ⟨⟨nt2, sC⟩, hC2, h⟩
        · exact oob_of_idx (add_triangle_error_tag h)
        obtain ⟨aC1, aC2, aC3⟩ := add_triangle_cover hC2 aB2 aB3
        rcases bind_eq_error h with h | ⟨sD, hD, h⟩
        · have hx := legalize_error_oob fuel sC _ p h aC2 aC3
          refine oobBeyond_trans ?_ hx
          rw [aC1, aB1, aA1]
        obtain ⟨e1, e2, e3⟩ := legalize_inv fuel sC _ sD hD aC2 aC3
        rcases bind_eq_error h with h | ⟨sE, hE, h⟩
        · have hx := legalize_error_oob fuel sD _ p h e2 e3
          refine oobBeyond_trans ?_ hx
          rw [e1, aC1, aB1, aA1]
        obtain ⟨f1, f2, f3⟩ := legalize_inv fuel sD _ sE hE e2 e3
        have hx := legalize_error_oob fuel sE _ p h f2 f3
        refine oobBeyond_trans ?_ hx
        rw [f1, e1, aC1, aB1, aA1]

/-- A failing `step` panics benignly or with an out-of-bounds
`push`/`remove` access beyond the capacity. -/
theorem step_error_oob {s : Triangulation} {fuel : Nat} {p : Panic}
    (h : s.step fuel = .error (.panic p))
    (h3 : 3 ∣ s.triangles.length) (hc : slotsCovered s []) :
    oobBeyond s.priority_queue.triangle_queue_indices.length p := by
  simp only [Triangulation.step] at h
  rcases bind_eq_error h with h | ⟨⟨popped, pq⟩, hpop, h⟩
  · exact Or.inl (pop_error_tag (liftP_panic_inv h))
  rw [liftP_eq_ok] at hpop
  cases popped with
  | none =>
    injection h with h
    exact RunError.noConfusion h
  | some qt =>
    have hx := liftP_panic_inv h
    obtain ⟨o1, o2⟩ := pop_pres hpop
    have hc1 : slotsCovered { s with priority_queue := pq } [] := by
      intro u hu
      rcases hc u hu with hlt | hm
      · left
        show u < pq.triangle_queue_indices.length
        rw [o1]
        exact hlt
      · right
        show u ∈ [] ++ pq.pending_triangle_indices
        rw [o2]
        exact hm
    have hy := stepBody_error_oob hx h3 hc1
    refine oobBeyond_trans ?_ hy
    show pq.triangle_queue_indices.length = _
    rw [o1]

/-- A failing `refine` panics benignly or with an out-of-bounds
`push`/`remove` access beyond the capacity. -/
theorem refine_error_oob {s : Triangulation} {fuel : Nat} {p : Panic}
    (h : s.refine fuel = .error (.panic p))
    (h3 : 3 ∣ s.triangles.length) (hc : slotsCovered s []) :
    oobBeyond s.priority_queue.triangle_queue_indices.length p := by
  simp only [Triangulation.refine] at h
  rcases bind_eq_error h with h | ⟨s1, h1, h⟩
  · exact step_error_oob h h3 hc
  · have hx := liftP_panic_inv h
    obtain ⟨b1, b2, b3⟩ := step_inv h1 h3 hc
    have hy := flush_error_oob hx
    refine oobBeyond_trans ?_ hy
    exact b1

/-- A failing refinement loop panics benignly or with an out-of-bounds
`push`/`remove` access beyond the capacity. -/
theorem runLoop_error_oob : ∀ (fuel : Nat) (s : Triangulation) (me : ℚ)
    (p : Panic), s.runLoop me fuel = .error (.panic p) →
    3 ∣ s.triangles.length → slotsCovered s [] →
    oobBeyond s.priority_queue.triangle_queue_indices.length p := by
  intro fuel
  induction fuel with
  | zero =>
    intro s me p h h3 hc
    simp only [Triangulation.runLoop] at h
    injection h with h
    injection h with h
    exact oob_of_fuel h.symm
  | succ fuel ih =>
    intro s me p h h3 hc
    simp only [Triangulation.runLoop] at h
    split at h
    · injection h with h
      exact RunError.noConfusion h
    · split at h
      · rcases bind_eq_error h with h | ⟨s1, h1, h⟩
        · exact refine_error_oob h h3 hc
        · obtain ⟨r1, r2, r3, r4⟩ := refine_inv h1 h3 hc
          have hx := ih s1 me p h r2 r4
          refine oobBeyond_trans ?_ hx
          exact r1
      · exact absurd h (by simp)

/-- A panicking `runState` panics benignly or with an out-of-bounds
`push`/`remove` access at a triangle index at least `⌊w·h/4⌋` — the
out-of-bounds reverse-index accesses a run can reach are exactly the
over-capacity ones. -/
theorem runState_error_oob {hd : List Height} {w hh : Nat} {me : ℚ}
    {fuel : Nat} {p : Panic}
    (h : Triangulation.runState hd w hh me fuel = .error (.panic p)) :
    oobBeyond (w * hh / 4) p := by
  simp only [Triangulation.runState, Triangulation.new,
    Triangulation.add_point] at h
  rcases bind_eq_error h with h | ⟨⟨t0, sA⟩, hA, h⟩
  · exact oob_of_idx (add_triangle_error_tag (liftP_panic_inv h))
  rw [liftP_eq_ok] at hA
  obtain ⟨aA1, aA2, aA3⟩ := add_triangle_cover hA ⟨0, rfl⟩
    (fun u hu => absurd hu (Nat.not_lt_zero _))
  rcases bind_eq_error h with h | ⟨⟨t1, sB⟩, hB, h⟩
  · exact oob_of_idx (add_triangle_error_tag (liftP_panic_inv h))
  rw [liftP_eq_ok] at hB
  obtain ⟨aB1, aB2, aB3⟩ := add_triangle_cover hB aA2 aA3
  have hcap : sB.priority_queue.triangle_queue_indices.length =
      w * hh / 4 := by
    rw [aB1, aA1]
    show (PriorityQueue.new (w * hh / 4)).triangle_queue_indices.length = _
    simp [PriorityQueue.new]
  rcases bind_eq_error h with h | ⟨sC, hC, h⟩
  · have hx := flush_error_oob (liftP_panic_inv h)
    refine oobBeyond_trans ?_ hx
    exact hcap
  rw [liftP_eq_ok] at hC
  obtain ⟨f1, f2, f3, f4⟩ := flush_inv hC aB3
  have hf3 : 3 ∣ sC.triangles.length := by
    rw [f1]
    exact aB2
  have hx := runLoop_error_oob fuel sC me p h hf3 f4
  refine oobBeyond_trans ?_ hx
  rw [f2]
  exact hcap

/-- C10 (amended): the reverse-index array is allocated by
`Triangulation::new` with length `⌊width·height/4⌋`; `push(t, e)` and
`remove(t)` index it directly at `t`, succeed only under the precondition
`t < ⌊width·height/4⌋` (preserving the array's length), and panic with
their dedicated out-of-bounds tags exactly when `t` is out of that
capacity; every run of the triangulation that completes keeps every
triangle slot index below the capacity (its triangle array holds at most
`3·⌊width·height/4⌋` entries, and the reverse index still has its initial
length); and whenever a run reaches the out-of-bounds access of `push` or
of `remove`, the accessed triangle index is at least `⌊width·height/4⌋`.
(The original claim's final conjunct — that an over-capacity run reaches
the out-of-bounds access in `push` — is refuted by
`queue_capacity_oob_in_remove`: the access reached can be the one in
`remove` instead.) -/
theorem queue_capacity_totality :
    (∀ (hd : List Height) (w hh : Nat),
      (Triangulation.new hd w hh).priority_queue.triangle_queue_indices =
        List.replicate (w * hh / 4) none) ∧
    (∀ (q q' : PriorityQueue) (t : Nat) (e : ℚ), q.push t e = .ok q' →
      t < q.triangle_queue_indices.length ∧
      q'.triangle_queue_indices.length = q.triangle_queue_indices.length) ∧
    (∀ (q q' : PriorityQueue) (t : Nat), q.remove t = .ok q' →
      t < q.triangle_queue_indices.length ∧
      q'.triangle_queue_indices.length = q.triangle_queue_indices.length) ∧
    (∀ (q : PriorityQueue) (t : Nat) (e : ℚ),
      q.push t e = .error (.pushIndexOOB t) ↔
        q.triangle_queue_indices.length ≤ t) ∧
    (∀ (q : PriorityQueue) (t : Nat),
      q.remove t = .error (.removeIndexOOB t) ↔
        q.triangle_queue_indices.length ≤ t) ∧
    (∀ (hd : List Height) (w hh : Nat) (me : ℚ) (fuel : Nat)
      (s' : Triangulation),
      Triangulation.runState hd w hh me fuel = .ok s' →
      s'.priority_queue.triangle_queue_indices.length = w * hh / 4 ∧
      s'.triangles.length ≤ 3 * (w * hh / 4)) ∧
    (∀ (hd : List Height) (w hh : Nat) (me : ℚ) (fuel : Nat) (t : Nat),
      Triangulation.runState hd w hh me fuel =
          .error (.panic (.pushIndexOOB t)) ∨
        Triangulation.runState hd w hh me fuel =
          .error (.panic (.removeIndexOOB t)) →
      w * hh / 4 ≤ t) := by
  refine ⟨?_, ?_, ?_, ?_, ?_, ?_, ?_⟩
  · intro hd w hh
    rfl
  · intro q q' t e h
    obtain ⟨p1, p2, _⟩ := push_ok_inv h
    exact ⟨p1, p2⟩
  · intro q q' t h
    obtain ⟨p1, p2, _⟩ := remove_ok_inv h
    exact ⟨p1, p2⟩
  · intro q t e
    exact push_oob_iff q t e
  · intro q t
    exact remove_oob_iff q t
  · intro hd w hh me fuel s' hrun
    obtain ⟨c1, _, _, c4⟩ := runState_capacity hrun
    exact ⟨c1, c4⟩
  · intro hd w hh me fuel t ht
    rcases ht with ht | ht
    · rcases runState_error_oob ht with hb | ⟨u, hu, hle⟩
      · rcases hb with hb | hb | hb <;> exact absurd hb (by simp)
      · rcases hu with hu | hu
        · injection hu with hu
          rw [hu]
          exact hle
        · exact absurd hu (by simp)
    · rcases runState_error_oob ht with hb | ⟨u, hu, hle⟩
      · rcases hb with hb | hb | hb <;> exact absurd hb (by simp)
      · rcases hu with hu | hu
        · exact absurd hu (by simp)
        · injection hu with hu
          rw [hu]
          exact hle

/-- C10 counterexample to the claim as stated: on this 5×5 input the run
creates triangle slots with indices beyond the capacity `⌊25/4⌋ = 6`, and
the out-of-bounds reverse-index access it reaches is in `remove` (tag
`removeIndexOOB`, on triangle 7), not in `push`. -/
theorem queue_capacity_oob_in_remove :
    Triangulation.run
      [0, 0, 0, 0, 0,
       0, 7, 0, 9, 0,
       0, 0, 3, 0, 0,
       0, 9, 0, 0, 0,
       0, 0, 0, 0, 0] 5 5 (mkRat 1 2) 200 =
      .error (.panic (.removeIndexOOB 7)) ∧
    Triangulation.run
      [0, 0, 0, 0, 0,
       0, 7, 0, 9, 0,
       0, 0, 3, 0, 0,
       0, 9, 0, 0, 0,
       0, 0, 0, 0, 0] 5 5 (mkRat 1 2) 200 ≠
      .error (.panic (.pushIndexOOB 7)) :=
  ⟨by decide, by decide⟩

/-- Concrete instantiation of the capacity theorem: the flat 4×2 run
completes, and its six triangle-array entries meet the bound
`3·⌊4·2/4⌋ = 6`. -/
theorem queue_capacity_totality_witness :
    (Triangulation.mk [0, 0, 0, 0, 0, 0, 0, 0] 4 2
      [(0, 0), (3, 0), (3, 1), (0, 1)] [2, 0, 3, 0, 2, 1]
      [some 3, none, none, some 0, none, none] [(0, 0), (0, 0)]
      (PriorityQueue.mk [0, 1] [some 0, some 1] [0, 0] [])
      ).triangles.length ≤ 3 * (4 * 2 / 4) :=
  (queue_capacity_totality.2.2.2.2.2.1 [0, 0, 0, 0, 0, 0, 0, 0] 4 2 1 100 _
    (by decide)).2

end Delatin
